import Mathlib

/-!
The field-exclusion filter and the two HTTP clients of jira-prompt.

A shallow embedding of `internal/jira/jira.go` and `internal/ollama/ollama.go`.

* A decoded JSON document (what `json.Unmarshal` stores into an `interface{}`) is a tree
  `JSONValue`; a Go `map[string]interface{}` is the list of its entries.  A decoded document is a
  tree without sharing, so in-place deletion on the map is the same as building the filtered list.
* `encoding/json`, `fmt` and the HTTP transport are not part of the repository: they are
  parameters of the embedded functions (`JSONLib`, `post`).
-/

namespace JiraPrompt

/-! ## Data model -/

/-- A value decoded by `encoding/json` into an `interface{}`: `nil`, `bool`, `float64`
(kept as its IEEE-754 binary64 bit pattern, which the program never inspects), `string`,
`[]interface{}` or `map[string]interface{}`. -/
inductive JSONValue where
  | null
  | bool (b : Bool)
  | number (bits : Nat)
  | str (s : String)
  | array (items : List JSONValue)
  | object (members : List (String × JSONValue))
  deriving Repr

/-- A Go `map[string]interface{}`, as the list of its entries. -/
abbrev JSONObject := List (String × JSONValue)

mutual
/-- Decidable equality of decoded values. -/
def JSONValue.decEq (a b : JSONValue) : Decidable (a = b) :=
  match a, b with
  | .null, .null => isTrue rfl
  | .bool x, .bool y =>
    if h : x = y then isTrue (by rw [h]) else isFalse (by intro e; cases e; exact h rfl)
  | .number x, .number y =>
    if h : x = y then isTrue (by rw [h]) else isFalse (by intro e; cases e; exact h rfl)
  | .str x, .str y =>
    if h : x = y then isTrue (by rw [h]) else isFalse (by intro e; cases e; exact h rfl)
  | .array x, .array y =>
    match JSONValue.decEqItems x y with
    | isTrue h => isTrue (by rw [h])
    | isFalse h => isFalse (by intro e; cases e; exact h rfl)
  | .object x, .object y =>
    match JSONValue.decEqMembers x y with
    | isTrue h => isTrue (by rw [h])
    | isFalse h => isFalse (by intro e; cases e; exact h rfl)
  | .null, .bool _ | .null, .number _ | .null, .str _ | .null, .array _ | .null, .object _
  | .bool _, .null | .bool _, .number _ | .bool _, .str _ | .bool _, .array _
  | .bool _, .object _
  | .number _, .null | .number _, .bool _ | .number _, .str _ | .number _, .array _
  | .number _, .object _
  | .str _, .null | .str _, .bool _ | .str _, .number _ | .str _, .array _ | .str _, .object _
  | .array _, .null | .array _, .bool _ | .array _, .number _ | .array _, .str _
  | .array _, .object _
  | .object _, .null | .object _, .bool _ | .object _, .number _ | .object _, .str _
  | .object _, .array _ =>
    isFalse (by intro e; cases e)
/-- Decidable equality of arrays of decoded values. -/
def JSONValue.decEqItems (a b : List JSONValue) : Decidable (a = b) :=
  match a, b with
  | [], [] => isTrue rfl
  | [], _ :: _ | _ :: _, [] => isFalse (by intro e; cases e)
  | x :: xs, y :: ys =>
    match JSONValue.decEq x y, JSONValue.decEqItems xs ys with
    | isTrue h, isTrue t => isTrue (by rw [h, t])
    | isFalse h, _ => isFalse (by intro e; cases e; exact h rfl)
    | _, isFalse t => isFalse (by intro e; cases e; exact t rfl)
/-- Decidable equality of entry lists. -/
def JSONValue.decEqMembers (a b : List (String × JSONValue)) : Decidable (a = b) :=
  match a, b with
  | [], [] => isTrue rfl
  | [], _ :: _ | _ :: _, [] => isFalse (by intro e; cases e)
  | (k, x) :: xs, (l, y) :: ys =>
    if hk : k = l then
      match JSONValue.decEq x y, JSONValue.decEqMembers xs ys with
      | isTrue h, isTrue t => isTrue (by rw [hk, h, t])
      | isFalse h, _ => isFalse (by intro e; cases e; exact h rfl)
      | _, isFalse t => isFalse (by intro e; cases e; exact t rfl)
    else isFalse (by intro e; cases e; exact hk rfl)
end

instance : DecidableEq JSONValue := JSONValue.decEq

/-- A Go `map[string]bool`, as the list of its entries, the most recent write first. -/
abbrev BoolMap := List (String × Bool)

/-- The Go expression `m[key]` on a `map[string]bool`: the stored value, `false` when the key
is absent. -/
def BoolMap.get (m : BoolMap) (key : String) : Bool :=
  match m.lookup key with
  | some b => b
  | none => false

/-- The Go statement `m[key] = b`. -/
def BoolMap.set (m : BoolMap) (key : String) (b : Bool) : BoolMap :=
  (key, b) :: m

/-! ## `removeKeys` (jira.go, lines 62-84) -/

mutual
/-- The loop `for key := range data` of `removeKeys`: an entry whose key is unwanted is
deleted (`continue`); the value of any other entry is handled by `removeKeysValue`. -/
def removeKeys (data : JSONObject) (unwantedKeys : BoolMap) : JSONObject :=
  match data with
  | [] => []
  | (key, value) :: rest =>
    if unwantedKeys.get key then removeKeys rest unwantedKeys
    else (key, removeKeysValue value unwantedKeys) :: removeKeys rest unwantedKeys
/-- The two type switches on `data[key]` (lines 70-82): a nested map is filtered
recursively, a nested array is walked by `removeKeysItems`, anything else is left alone. -/
def removeKeysValue (value : JSONValue) (unwantedKeys : BoolMap) : JSONValue :=
  match value with
  | .object nestedMap => .object (removeKeys nestedMap unwantedKeys)
  | .array nestedArray => .array (removeKeysItems nestedArray unwantedKeys)
  | other => other
/-- The loop `for _, item := range nestedArray` (lines 77-81). -/
def removeKeysItems (nestedArray : List JSONValue) (unwantedKeys : BoolMap) :
    List JSONValue :=
  match nestedArray with
  | [] => []
  | item :: rest => removeKeysItem item unwantedKeys :: removeKeysItems rest unwantedKeys
/-- The body of that loop (lines 78-80): an item that is a map is filtered recursively, any
other item (a scalar or an array) is left alone. -/
def removeKeysItem (item : JSONValue) (unwantedKeys : BoolMap) : JSONValue :=
  match item with
  | .object itemMap => .object (removeKeys itemMap unwantedKeys)
  | other => other
end

/-! ## Specification vocabulary for the filter -/

/-- The keys of an object. -/
def keys (data : JSONObject) : List String := data.map Prod.fst

/-- No key of the object is unwanted. -/
def cleanObject (unwantedKeys : BoolMap) (o : JSONObject) : Prop :=
  ∀ k ∈ keys o, unwantedKeys.get k = false

mutual
/-- Objects below the entries of an object, following properties and array elements but
never an array that is directly an element of another array. -/
def reachableViaMembers (members : List (String × JSONValue)) : List JSONObject :=
  match members with
  | [] => []
  | (_, value) :: rest => reachableViaProperty value ++ reachableViaMembers rest
/-- Objects at or below the value of a property. -/
def reachableViaProperty (value : JSONValue) : List JSONObject :=
  match value with
  | .object members => members :: reachableViaMembers members
  | .array items => reachableViaElements items
  | _ => []
/-- Objects at or below the elements of an array that is the value of a property: an
element that is an object is followed, an element that is an array is not. -/
def reachableViaElements (items : List JSONValue) : List JSONObject :=
  match items with
  | [] => []
  | item :: rest =>
    (match item with
      | .object members => members :: reachableViaMembers members
      | _ => []) ++ reachableViaElements rest
end

/-- Every object reachable from the root `data` (the root included) through object
properties and array elements, without passing through an array that is directly an
element of another array. -/
def reachableObjects (data : JSONObject) : List JSONObject :=
  data :: reachableViaMembers data

mutual
/-- Objects below the entries of an object, whatever mix of objects and arrays leads there. -/
def allObjectsMembers (members : List (String × JSONValue)) : List JSONObject :=
  match members with
  | [] => []
  | (_, value) :: rest => allObjectsValue value ++ allObjectsMembers rest
/-- Objects at or below a value. -/
def allObjectsValue (value : JSONValue) : List JSONObject :=
  match value with
  | .object members => members :: allObjectsMembers members
  | .array items => allObjectsItems items
  | _ => []
/-- Objects at or below the elements of an array. -/
def allObjectsItems (items : List JSONValue) : List JSONObject :=
  match items with
  | [] => []
  | item :: rest => allObjectsValue item ++ allObjectsItems rest
end

/-- Every object anywhere in the document rooted at `data`, the root included. -/
def allObjects (data : JSONObject) : List JSONObject :=
  data :: allObjectsMembers data

mutual
/-- No array below these entries has an array as a direct element. -/
def noArrayInArrayMembers (members : List (String × JSONValue)) : Bool :=
  match members with
  | [] => true
  | (_, value) :: rest => noArrayInArrayValue value && noArrayInArrayMembers rest
/-- No array at or below this value has an array as a direct element. -/
def noArrayInArrayValue (value : JSONValue) : Bool :=
  match value with
  | .object members => noArrayInArrayMembers members
  | .array items => noArrayInArrayItems items
  | _ => true
/-- None of these array elements is an array, and the same holds below each of them. -/
def noArrayInArrayItems (items : List JSONValue) : Bool :=
  match items with
  | [] => true
  | item :: rest =>
    (match item with
      | .array _ => false
      | .object members => noArrayInArrayMembers members
      | _ => true) && noArrayInArrayItems rest
end

mutual
/-- Objects below these entries that lie inside an array which is directly an element of
another array. -/
def shieldedMembers (members : List (String × JSONValue)) : List JSONObject :=
  match members with
  | [] => []
  | (_, value) :: rest => shieldedValue value ++ shieldedMembers rest
/-- Objects below this value that lie inside an array which is directly an element of
another array. -/
def shieldedValue (value : JSONValue) : List JSONObject :=
  match value with
  | .object members => shieldedMembers members
  | .array items => shieldedItems items
  | _ => []
/-- Objects below these array elements that lie inside an array which is directly an
element of another array: every object below an element that is an array, and the objects
found in the same way below an element that is an object. -/
def shieldedItems (items : List JSONValue) : List JSONObject :=
  match items with
  | [] => []
  | item :: rest =>
    (match item with
      | .array inner => allObjectsItems inner
      | .object members => shieldedMembers members
      | _ => []) ++ shieldedItems rest
end

/-- One step of a path into a document: into the value of the property `name` of an
object, or into the element `i` of an array. -/
inductive Step where
  | key (name : String)
  | index (i : Nat)
  deriving DecidableEq, Repr

mutual
/-- The objects below these entries, each with the path that leads to it; `path` is the
path of the object that holds the entries. -/
def objectsAtMembers (path : List Step) (members : List (String × JSONValue)) :
    List (List Step × JSONObject) :=
  match members with
  | [] => []
  | (key, value) :: rest =>
    objectsAtValue (path ++ [.key key]) value ++ objectsAtMembers path rest
/-- The objects at or below the value found at `path`, each with its path. -/
def objectsAtValue (path : List Step) (value : JSONValue) : List (List Step × JSONObject) :=
  match value with
  | .object members => (path, members) :: objectsAtMembers path members
  | .array items => objectsAtItems path 0 items
  | _ => []
/-- The objects at or below the elements `i`, `i + 1`, ... of the array found at `path`,
each with its path. -/
def objectsAtItems (path : List Step) (i : Nat) (items : List JSONValue) :
    List (List Step × JSONObject) :=
  match items with
  | [] => []
  | item :: rest =>
    objectsAtValue (path ++ [.index i]) item ++ objectsAtItems path (i + 1) rest
end

/-- Every object anywhere in the document rooted at `data`, each with the path from the root
that leads to it. -/
def objectsAt (data : JSONObject) : List (List Step × JSONObject) :=
  ([], data) :: objectsAtMembers [] data

/-- The path passes through an array that is directly an element of another array: it has
two index steps in a row. -/
def throughArrayInArray : List Step → Bool
  | [] => false
  | .key _ :: rest => throughArrayInArray rest
  | .index _ :: rest =>
    (match rest with
      | .index _ :: _ => true
      | _ => false) || throughArrayInArray rest

/-- The sample document of `TestRemoveKeys`. -/
def testData : JSONObject :=
  [("keep", .str "value1"), ("remove", .str "value2"),
   ("nested", .object [("nestedRemove", .str "value3"), ("nestedKeep", .str "value4")]),
   ("array", .array [.object [("arrayRemove", .str "value5"), ("arrayKeep", .str "value6")],
                     .str "some-string-value"])]

/-- The unwanted keys of `TestRemoveKeys`. -/
def testUnwantedKeys : BoolMap :=
  [("remove", true), ("nestedRemove", true), ("arrayRemove", true)]

/-! ## The issue search client (jira.go, lines 28-60) -/

/-- The Go standard library call `strings.Split(s, sep)` for a one-character separator, on
the characters of `s`: the substrings between the separators, in order.  A string without
separator yields itself as the only substring, so the result is never empty. -/
def splitChars (sep : Char) : List Char → List (List Char)
  | [] => [[]]
  | c :: cs =>
    if c = sep then [] :: splitChars sep cs
    else
      match splitChars sep cs with
      | seg :: segs => (c :: seg) :: segs
      | [] => [[c]]

/-- The call `strings.Split(s, ",")` of line 47, for any one-character separator. -/
def Split (s : String) (sep : Char) : List String :=
  (splitChars sep s.data).map String.mk

/-- Lines 46-49 of `Search`: the map `fieldsToRemove`, in which every substring of the
comma-separated `excludedFields` is set to `true`. -/
def fieldsToRemove (excludedFields : String) : BoolMap :=
  (Split excludedFields ',').foldl (fun m str => m.set str true) []

/-- The error of a `Read` on a response body: `io.EOF` or any other error. -/
inductive ReadErr where
  | eof
  | other (msg : String)
  deriving DecidableEq, Repr

/-- The result `(n, readErr)` of one `RawBody().Read(buf)`: the bytes `buf[:n]` and the
error. -/
structure ReadResult where
  chunk : String
  err : Option ReadErr
  deriving DecidableEq, Repr

/-- What the clients look at in a resty response: `StatusCode()`, `Status()`, `String()`
(the buffered body) and, for a response that was not parsed, the results of the successive
reads of `RawBody()`; a body whose listed reads are used up reports `io.EOF`. -/
structure Response where
  statusCode : Nat
  status : String
  body : String
  rawBody : List ReadResult
  deriving DecidableEq, Repr

/-- The library functions the clients call on decoded documents: `json.Unmarshal` into a
`map[string]interface{}`, `json.Marshal` of such a map, and the `%v` rendering of `fmt`.
An error is represented by its message. -/
structure JSONLib where
  Unmarshal : String → Except String JSONObject
  Marshal : JSONObject → Except String String
  Sprint : JSONObject → String

/-- The method `Search`: `post` is the HTTP exchange `restClient.R().SetBody(body).Post(..)`.
The result is the pair `(string, error)`, the error given by its message. -/
def Search (lib : JSONLib) (post : String → Except String Response)
    (body excludedFields : String) : String × Option String :=
  match post body with
  | .error err => ("", some err)
  | .ok res =>
    if res.statusCode ≠ 200 then
      ("", some ("failed to search for Jira issues: " ++ res.status))
    else
      match lib.Unmarshal res.body with
      | .error err => ("", some ("failed to unmarshal Jira issues: " ++ err))
      | .ok data =>
        match lib.Marshal (removeKeys data (fieldsToRemove excludedFields)) with
        | .error err => ("", some ("failed to marshal Jira issues: " ++ err))
        | .ok jsonData => (jsonData, none)

/-! ## The inference client (ollama.go) -/

/-- The struct `request` (lines 18-23). -/
structure request where
  Model : String
  Prompt : String
  Stream : Bool
  Raw : Bool
  deriving DecidableEq, Repr

/-- The function `unmarshallResponse` (lines 87-99). -/
def unmarshallResponse (lib : JSONLib) (response : String) : String × Option String :=
  match lib.Unmarshal response with
  | .error err => ("", some ("failed unmarshal generated response: " ++ err))
  | .ok data =>
    match data.lookup "response" with
    | some (.str resp) => (resp, none)
    | _ =>
      ("", some ("the \"response\" field is missing or not a string in the returned JSON: "
        ++ lib.Sprint data))

/-- How a call of `Prompt` ends: it returns `(string, error)`, or `log.Fatalf` ends the
process. -/
inductive Outcome where
  | returned (value : String) (err : Option String)
  | fatal (msg : String)
  deriving DecidableEq, Repr

/-- The streaming loop of `Prompt` (lines 64-82) over the remaining reads of the body;
`out` is the text printed so far.  The result is the printed text and the outcome. -/
def readLoop (lib : JSONLib) : List ReadResult → String → String × Outcome
  | [], out => (out, .returned "" none)
  | r :: rest, out =>
    match r.err with
    | some .eof => (out, .returned "" none)
    | some (.other msg) => (out, .fatal ("error reading from stream: " ++ msg))
    | none =>
      match unmarshallResponse lib r.chunk with
      | (_, some err) => (out, .returned "" (some err))
      | (resp, none) => readLoop lib rest (out ++ resp)

/-- The request built by `Prompt` (lines 35 and 41-46). -/
def newRequest (model textPrompt jiraResponse : String) (stream raw : Bool) : request :=
  { Model := model, Prompt := textPrompt ++ "\n" ++ jiraResponse, Stream := stream, Raw := raw }

/-- The method `Prompt`: `post` is the HTTP exchange `restClient.R()...Post("/api/generate")`.
The result is the text printed on standard output and the outcome. -/
def Prompt (lib : JSONLib) (post : request → Except String Response)
    (model textPrompt jiraResponse : String) (stream raw : Bool) : String × Outcome :=
  match post (newRequest model textPrompt jiraResponse stream raw) with
  | .error err => ("", .returned "" (some err))
  | .ok res =>
    if res.statusCode ≠ 200 then
      ("", .returned "" (some ("failed to prompt " ++ model ++ ": " ++ res.status)))
    else if !stream then
      ("", .returned (unmarshallResponse lib res.body).1 (unmarshallResponse lib res.body).2)
    else
      readLoop lib res.rawBody ""

/-! ## The contract of `encoding/json`, and a reference library -/

mutual
/-- The entry list `after` is `before` with some entries deleted, the values of the kept
entries being pruned in the same way. -/
def prunedMembers (before after : List (String × JSONValue)) : Bool :=
  match before with
  | [] => after.isEmpty
  | (key, value) :: rest =>
    prunedMembers rest after ||
      (match after with
        | [] => false
        | (key', value') :: after' =>
          decide (key = key') && (prunedValue value value' && prunedMembers rest after'))
/-- The value `after` is `before` with entries deleted from objects at any depth: objects
are pruned entry-wise, arrays element-wise (keeping length and order), scalars are equal. -/
def prunedValue (before after : JSONValue) : Bool :=
  match before with
  | .object members =>
    (match after with
      | .object members' => prunedMembers members members'
      | _ => false)
  | .array items =>
    (match after with
      | .array items' => prunedItems items items'
      | _ => false)
  | scalar => decide (scalar = after)
/-- Element-wise pruning of an array. -/
def prunedItems (before after : List JSONValue) : Bool :=
  match before with
  | [] => after.isEmpty
  | item :: rest =>
    (match after with
      | [] => false
      | item' :: after' => prunedValue item item' && prunedItems rest after')
end

/-- The contract of `encoding/json` the search client relies on: whatever is obtained by
deleting entries from a document that `Unmarshal` produced is marshalled without error, to
a text that `Unmarshal` decodes to that same document. -/
def JSONLib.RoundTrips (lib : JSONLib) : Prop :=
  ∀ text data after, lib.Unmarshal text = .ok data → prunedMembers data after = true →
    ∃ text', lib.Marshal after = .ok text' ∧ lib.Unmarshal text' = .ok after

/-- A natural number in binary, least significant digit first, closed by a dot. -/
def encNat (n : Nat) : List Char :=
  if h : n = 0 then ['.']
  else (if n % 2 = 1 then '1' else '0') :: encNat (n / 2)
decreasing_by exact Nat.div_lt_self (Nat.pos_of_ne_zero h) (by decide)

/-- Reads a number written by `encNat` and returns it with the rest of the text. -/
def readNat : List Char → Option (Nat × List Char)
  | [] => none
  | c :: cs =>
    if c = '.' then some (0, cs)
    else if c = '0' then (readNat cs).map (fun r => (2 * r.1, r.2))
    else if c = '1' then (readNat cs).map (fun r => (2 * r.1 + 1, r.2))
    else none

/-- A string as its length followed by its characters. -/
def encString (s : String) : List Char :=
  encNat s.data.length ++ s.data

/-- Reads a string written by `encString` and returns it with the rest of the text. -/
def readString (cs : List Char) : Option (String × List Char) :=
  match readNat cs with
  | none => none
  | some (n, rest) =>
    if n ≤ rest.length then some (String.mk (rest.take n), rest.drop n) else none

mutual
/-- The text of a value in the reference format: a tag character, then the content. -/
def encValue : JSONValue → List Char
  | .null => ['n']
  | .bool b => [if b then 't' else 'f']
  | .number bits => 'd' :: encNat bits
  | .str s => 's' :: encString s
  | .array items => '[' :: encItems items
  | .object members => '(' :: encMembers members
/-- The elements of an array, each announced by a comma, closed by a bracket. -/
def encItems : List JSONValue → List Char
  | [] => [']']
  | item :: rest => ',' :: (encValue item ++ encItems rest)
/-- The entries of an object, each announced by a comma, closed by a parenthesis. -/
def encMembers : List (String × JSONValue) → List Char
  | [] => [')']
  | (key, value) :: rest => ',' :: (encString key ++ (encValue value ++ encMembers rest))
end

mutual
/-- Reads one value of the reference format; `fuel` bounds the number of nested calls. -/
def parseValue : Nat → List Char → Option (JSONValue × List Char)
  | 0, _ => none
  | _ + 1, [] => none
  | fuel + 1, c :: cs =>
    if c = 'n' then some (.null, cs)
    else if c = 't' then some (.bool true, cs)
    else if c = 'f' then some (.bool false, cs)
    else if c = 'd' then (readNat cs).map (fun r => (.number r.1, r.2))
    else if c = 's' then (readString cs).map (fun r => (.str r.1, r.2))
    else if c = '[' then (parseItems fuel cs).map (fun r => (.array r.1, r.2))
    else if c = '(' then (parseMembers fuel cs).map (fun r => (.object r.1, r.2))
    else none
/-- Reads the elements of an array up to the closing bracket. -/
def parseItems : Nat → List Char → Option (List JSONValue × List Char)
  | 0, _ => none
  | _ + 1, [] => none
  | fuel + 1, c :: cs =>
    if c = ']' then some ([], cs)
    else if c = ',' then
      match parseValue fuel cs with
      | none => none
      | some (item, rest) => (parseItems fuel rest).map (fun r => (item :: r.1, r.2))
    else none
/-- Reads the entries of an object up to the closing parenthesis. -/
def parseMembers : Nat → List Char → Option (List (String × JSONValue) × List Char)
  | 0, _ => none
  | _ + 1, [] => none
  | fuel + 1, c :: cs =>
    if c = ')' then some ([], cs)
    else if c = ',' then
      match readString cs with
      | none => none
      | some (key, rest) =>
        match parseValue fuel rest with
        | none => none
        | some (value, rest') =>
          (parseMembers fuel rest').map (fun r => ((key, value) :: r.1, r.2))
    else none
end

/-- A reference library: a self-delimiting text format in place of JSON. -/
def refLib : JSONLib where
  Unmarshal text :=
    match parseValue (text.data.length + 1) text.data with
    | some (.object members, []) => .ok members
    | _ => .error "invalid character"
  Marshal data := .ok (String.mk (encValue (.object data)))
  Sprint data := String.mk (encValue (.object data))

/-- The text `s` contains the text `sub` (what `assert.Contains` checks on an error
message). -/
def strContains (s sub : String) : Prop :=
  sub.data <:+: s.data

instance (s sub : String) : Decidable (strContains s sub) := by
  unfold strContains
  infer_instance

/-- The body served by the mock of `TestSearch_Success`, decoded; the numbers `0`, `50` and
`1` are given by their `float64` bit patterns. -/
def searchTestData : JSONObject :=
  [("expand", .str "schema,names"),
   ("issues", .array [.object [("fields", .object [("summary", .str "Issue summary")]),
                               ("id", .str "10000"), ("key", .str "PROJ-1")]]),
   ("maxResults", .number 0x4049000000000000),
   ("startAt", .number 0),
   ("total", .number 0x3FF0000000000000)]

/-- The union of two sets of names held as `map[string]bool`: the names that are `true` in
one of the two maps. -/
def BoolMap.union (a b : BoolMap) : BoolMap :=
  ((a ++ b).filter (fun e => a.get e.1 || b.get e.1)).map (fun e => (e.1, true))

/-- The "response" values of the chunks before the first chunk that fails to decode. -/
def decodedResponses (lib : JSONLib) : List String → List String
  | [] => []
  | chunk :: rest =>
    match unmarshallResponse lib chunk with
    | (resp, none) => resp :: decodedResponses lib rest
    | (_, some _) => []

/-- The error of the first chunk that fails to decode, if there is one. -/
def firstDecodeError (lib : JSONLib) : List String → Option String
  | [] => none
  | chunk :: rest =>
    match unmarshallResponse lib chunk with
    | (_, none) => firstDecodeError lib rest
    | (_, some err) => some err

/-- A body that hands over each chunk in a `Read` of its own with a nil error, and reports
`io.EOF` afterwards in a `Read` that carries no data. -/
def cleanReads (chunks : List String) : List ReadResult :=
  chunks.map (fun chunk => ⟨chunk, none⟩) ++ [⟨"", some .eof⟩]

/-- The behaviour of `encoding/json` and `fmt` on the text `null`, and nothing more:
`json.Unmarshal` of `null` into a map returns no error and leaves the map nil, that is
without entries; `json.Marshal` of that map is `null`; `%v` prints it as `map[]`.  Every
other text or map is answered by an error. -/
def nullLib : JSONLib where
  Unmarshal text := if text = "null" then .ok [] else .error "invalid character"
  Marshal data := if data = [] then .ok "null" else .error "unsupported value"
  Sprint data := if data = [] then "map[]" else "map[...]"

/-! ## Theorems about `removeKeys` -/

theorem keys_removeKeys_clean (unwantedKeys : BoolMap) (data : JSONObject) :
    cleanObject unwantedKeys (removeKeys data unwantedKeys) := by
  induction data with
  | nil => intro k hk; simp [removeKeys, keys] at hk
  | cons kv rest ih =>
    obtain ⟨key, value⟩ := kv
    intro k hk
    by_cases h : unwantedKeys.get key = true
    · rw [removeKeys, if_pos h] at hk
      exact ih k hk
    · rw [removeKeys, if_neg h] at hk
      simp only [keys, List.map_cons, List.mem_cons] at hk
      rcases hk with rfl | hk
      · simpa using h
      · exact ih k hk

mutual
theorem reachableViaMembers_removeKeys (unwantedKeys : BoolMap) (data : JSONObject) :
    ∀ o ∈ reachableViaMembers (removeKeys data unwantedKeys), cleanObject unwantedKeys o := by
  match data with
  | [] => intro o ho; simp [removeKeys, reachableViaMembers] at ho
  | (key, value) :: rest =>
    intro o ho
    by_cases h : unwantedKeys.get key = true
    · rw [removeKeys, if_pos h] at ho
      exact reachableViaMembers_removeKeys unwantedKeys rest o ho
    · rw [removeKeys, if_neg h, reachableViaMembers, List.mem_append] at ho
      rcases ho with ho | ho
      · exact reachableViaProperty_removeKeysValue unwantedKeys value o ho
      · exact reachableViaMembers_removeKeys unwantedKeys rest o ho
theorem reachableViaProperty_removeKeysValue (unwantedKeys : BoolMap) (value : JSONValue) :
    ∀ o ∈ reachableViaProperty (removeKeysValue value unwantedKeys),
      cleanObject unwantedKeys o := by
  match value with
  | .object nestedMap =>
    intro o ho
    rw [removeKeysValue, reachableViaProperty, List.mem_cons] at ho
    rcases ho with rfl | ho
    · exact keys_removeKeys_clean unwantedKeys nestedMap
    · exact reachableViaMembers_removeKeys unwantedKeys nestedMap o ho
  | .array nestedArray =>
    intro o ho
    rw [removeKeysValue, reachableViaProperty] at ho
    exact reachableViaElements_removeKeysItems unwantedKeys nestedArray o ho
  | .null | .bool _ | .number _ | .str _ =>
    intro o ho
    simp [removeKeysValue, reachableViaProperty] at ho
theorem reachableViaElements_removeKeysItems (unwantedKeys : BoolMap)
    (nestedArray : List JSONValue) :
    ∀ o ∈ reachableViaElements (removeKeysItems nestedArray unwantedKeys),
      cleanObject unwantedKeys o := by
  match nestedArray with
  | [] => intro o ho; simp [removeKeysItems, reachableViaElements] at ho
  | .object itemMap :: rest =>
    intro o ho
    rw [removeKeysItems, removeKeysItem, reachableViaElements, List.mem_append, List.mem_cons] at ho
    rcases ho with (rfl | ho) | ho
    · exact keys_removeKeys_clean unwantedKeys itemMap
    · exact reachableViaMembers_removeKeys unwantedKeys itemMap o ho
    · exact reachableViaElements_removeKeysItems unwantedKeys rest o ho
  | .array _ :: rest | .null :: rest | .bool _ :: rest | .number _ :: rest | .str _ :: rest =>
    intro o ho
    simp only [removeKeysItems, removeKeysItem, reachableViaElements, List.mem_append, List.not_mem_nil,
      false_or] at ho
    exact reachableViaElements_removeKeysItems unwantedKeys rest o ho
end

/-- C1 (name-based completeness): after `removeKeys data unwantedKeys`, no object reachable
from the root through object properties and array elements, without passing through an
array that is directly an element of another array, has an unwanted key. -/
theorem removeKeys_complete (data : JSONObject) (unwantedKeys : BoolMap) :
    ∀ o ∈ reachableObjects (removeKeys data unwantedKeys),
      ∀ k ∈ keys o, unwantedKeys.get k = false := by
  intro o ho
  rw [reachableObjects, List.mem_cons] at ho
  rcases ho with rfl | ho
  · exact keys_removeKeys_clean unwantedKeys data
  · exact reachableViaMembers_removeKeys unwantedKeys data o ho

/-- C1 at the document of `TestRemoveKeys`: the object left under `array` is reachable and
its key `arrayKeep` is not unwanted. -/
theorem removeKeys_complete_witness :
    ([("arrayKeep", JSONValue.str "value6")] : JSONObject) ∈
        reachableObjects (removeKeys testData testUnwantedKeys) ∧
      "arrayKeep" ∈ keys [("arrayKeep", JSONValue.str "value6")] ∧
      testUnwantedKeys.get "arrayKeep" = false :=
  ⟨by decide, by decide,
    removeKeys_complete testData testUnwantedKeys [("arrayKeep", JSONValue.str "value6")]
      (by decide) "arrayKeep" (by decide)⟩

mutual
theorem allObjectsMembers_removeKeys (unwantedKeys : BoolMap) (data : JSONObject) :
    ∀ o ∈ allObjectsMembers (removeKeys data unwantedKeys),
      o ∈ shieldedMembers (removeKeys data unwantedKeys) ∨ cleanObject unwantedKeys o := by
  match data with
  | [] => intro o ho; simp [removeKeys, allObjectsMembers] at ho
  | (key, value) :: rest =>
    intro o ho
    by_cases h : unwantedKeys.get key = true
    · rw [removeKeys, if_pos h] at ho ⊢
      exact allObjectsMembers_removeKeys unwantedKeys rest o ho
    · rw [removeKeys, if_neg h, allObjectsMembers, List.mem_append] at ho
      rw [removeKeys, if_neg h, shieldedMembers, List.mem_append]
      rcases ho with ho | ho
      · rcases allObjectsValue_removeKeysValue unwantedKeys value o ho with h1 | h1
        · exact Or.inl (Or.inl h1)
        · exact Or.inr h1
      · rcases allObjectsMembers_removeKeys unwantedKeys rest o ho with h1 | h1
        · exact Or.inl (Or.inr h1)
        · exact Or.inr h1
theorem allObjectsValue_removeKeysValue (unwantedKeys : BoolMap) (value : JSONValue) :
    ∀ o ∈ allObjectsValue (removeKeysValue value unwantedKeys),
      o ∈ shieldedValue (removeKeysValue value unwantedKeys) ∨ cleanObject unwantedKeys o := by
  match value with
  | .object nestedMap =>
    intro o ho
    rw [removeKeysValue, allObjectsValue, List.mem_cons] at ho
    rw [removeKeysValue, shieldedValue]
    rcases ho with rfl | ho
    · exact Or.inr (keys_removeKeys_clean unwantedKeys nestedMap)
    · exact allObjectsMembers_removeKeys unwantedKeys nestedMap o ho
  | .array nestedArray =>
    intro o ho
    rw [removeKeysValue, allObjectsValue] at ho
    rw [removeKeysValue, shieldedValue]
    exact allObjectsItems_removeKeysItems unwantedKeys nestedArray o ho
  | .null | .bool _ | .number _ | .str _ =>
    intro o ho
    simp [removeKeysValue, allObjectsValue] at ho
theorem allObjectsItems_removeKeysItems (unwantedKeys : BoolMap)
    (nestedArray : List JSONValue) :
    ∀ o ∈ allObjectsItems (removeKeysItems nestedArray unwantedKeys),
      o ∈ shieldedItems (removeKeysItems nestedArray unwantedKeys) ∨
        cleanObject unwantedKeys o := by
  match nestedArray with
  | [] => intro o ho; simp [removeKeysItems, allObjectsItems] at ho
  | .object itemMap :: rest =>
    intro o ho
    rw [removeKeysItems, removeKeysItem, allObjectsItems, allObjectsValue, List.mem_append, List.mem_cons] at ho
    rw [removeKeysItems, removeKeysItem, shieldedItems, List.mem_append]
    rcases ho with (rfl | ho) | ho
    · exact Or.inr (keys_removeKeys_clean unwantedKeys itemMap)
    · rcases allObjectsMembers_removeKeys unwantedKeys itemMap o ho with h1 | h1
      · exact Or.inl (Or.inl h1)
      · exact Or.inr h1
    · rcases allObjectsItems_removeKeysItems unwantedKeys rest o ho with h1 | h1
      · exact Or.inl (Or.inr h1)
      · exact Or.inr h1
  | .array inner :: rest =>
    intro o ho
    simp only [removeKeysItems, removeKeysItem, allObjectsItems, allObjectsValue, List.mem_append] at ho
    simp only [removeKeysItems, removeKeysItem, shieldedItems, List.mem_append]
    rcases ho with ho | ho
    · exact Or.inl (Or.inl ho)
    · rcases allObjectsItems_removeKeysItems unwantedKeys rest o ho with h1 | h1
      · exact Or.inl (Or.inr h1)
      · exact Or.inr h1
  | .null :: rest | .bool _ :: rest | .number _ :: rest | .str _ :: rest =>
    intro o ho
    simp only [removeKeysItems, removeKeysItem, allObjectsItems, allObjectsValue, List.mem_append,
      List.not_mem_nil, false_or] at ho
    simp only [removeKeysItems, removeKeysItem, shieldedItems, List.mem_append, List.not_mem_nil, false_or]
    exact allObjectsItems_removeKeysItems unwantedKeys rest o ho
end

mutual
theorem shieldedMembers_removeKeys (unwantedKeys : BoolMap) (data : JSONObject)
    (h : noArrayInArrayMembers data = true) :
    shieldedMembers (removeKeys data unwantedKeys) = [] := by
  match data with
  | [] => simp [removeKeys, shieldedMembers]
  | (key, value) :: rest =>
    rw [noArrayInArrayMembers, Bool.and_eq_true] at h
    by_cases hk : unwantedKeys.get key = true
    · rw [removeKeys, if_pos hk]
      exact shieldedMembers_removeKeys unwantedKeys rest h.2
    · rw [removeKeys, if_neg hk, shieldedMembers,
        shieldedValue_removeKeysValue unwantedKeys value h.1,
        shieldedMembers_removeKeys unwantedKeys rest h.2]
      rfl
theorem shieldedValue_removeKeysValue (unwantedKeys : BoolMap) (value : JSONValue)
    (h : noArrayInArrayValue value = true) :
    shieldedValue (removeKeysValue value unwantedKeys) = [] := by
  match value with
  | .object nestedMap =>
    rw [noArrayInArrayValue] at h
    rw [removeKeysValue, shieldedValue]
    exact shieldedMembers_removeKeys unwantedKeys nestedMap h
  | .array nestedArray =>
    rw [noArrayInArrayValue] at h
    rw [removeKeysValue, shieldedValue]
    exact shieldedItems_removeKeysItems unwantedKeys nestedArray h
  | .null | .bool _ | .number _ | .str _ => simp [removeKeysValue, shieldedValue]
theorem shieldedItems_removeKeysItems (unwantedKeys : BoolMap) (nestedArray : List JSONValue)
    (h : noArrayInArrayItems nestedArray = true) :
    shieldedItems (removeKeysItems nestedArray unwantedKeys) = [] := by
  match nestedArray with
  | [] => simp [removeKeysItems, shieldedItems]
  | .object itemMap :: rest =>
    rw [noArrayInArrayItems, Bool.and_eq_true] at h
    rw [removeKeysItems, removeKeysItem, shieldedItems, shieldedMembers_removeKeys unwantedKeys itemMap h.1,
      shieldedItems_removeKeysItems unwantedKeys rest h.2]
    rfl
  | .array inner :: rest =>
    simp [noArrayInArrayItems] at h
  | .null :: rest | .bool _ :: rest | .number _ :: rest | .str _ :: rest =>
    simp only [noArrayInArrayItems, Bool.true_and] at h
    simp only [removeKeysItems, removeKeysItem, shieldedItems, List.nil_append]
    exact shieldedItems_removeKeysItems unwantedKeys rest h
end

theorem throughArrayInArray_append (before after : List Step) (i j : Nat) :
    throughArrayInArray (before ++ .index i :: .index j :: after) = true := by
  induction before with
  | nil => simp [throughArrayInArray]
  | cons step rest ih =>
    cases step with
    | key name => simpa [throughArrayInArray] using ih
    | index n =>
      rw [List.cons_append, throughArrayInArray.eq_def]
      simp only [ih, Bool.or_true]

mutual
theorem path_objectsAtMembers (path : List Step) (members : List (String × JSONValue)) :
    ∀ po ∈ objectsAtMembers path members, ∃ more, po.1 = path ++ more := by
  match members with
  | [] => intro po hpo; simp [objectsAtMembers] at hpo
  | (key, value) :: rest =>
    intro po hpo
    rw [objectsAtMembers, List.mem_append] at hpo
    rcases hpo with hpo | hpo
    · obtain ⟨more, h⟩ := path_objectsAtValue (path ++ [.key key]) value po hpo
      exact ⟨.key key :: more, by rw [h, List.append_assoc]; rfl⟩
    · exact path_objectsAtMembers path rest po hpo
theorem path_objectsAtValue (path : List Step) (value : JSONValue) :
    ∀ po ∈ objectsAtValue path value, ∃ more, po.1 = path ++ more := by
  match value with
  | .object members =>
    intro po hpo
    rw [objectsAtValue, List.mem_cons] at hpo
    rcases hpo with rfl | hpo
    · exact ⟨[], (List.append_nil path).symm⟩
    · exact path_objectsAtMembers path members po hpo
  | .array items =>
    intro po hpo
    rw [objectsAtValue] at hpo
    obtain ⟨j, more, h⟩ := path_objectsAtItems path 0 items po hpo
    exact ⟨.index j :: more, h⟩
  | .null | .bool _ | .number _ | .str _ =>
    intro po hpo
    simp [objectsAtValue] at hpo
theorem path_objectsAtItems (path : List Step) (i : Nat) (items : List JSONValue) :
    ∀ po ∈ objectsAtItems path i items, ∃ j more, po.1 = path ++ .index j :: more := by
  match items with
  | [] => intro po hpo; simp [objectsAtItems] at hpo
  | item :: rest =>
    intro po hpo
    rw [objectsAtItems, List.mem_append] at hpo
    rcases hpo with hpo | hpo
    · obtain ⟨more, h⟩ := path_objectsAtValue (path ++ [.index i]) item po hpo
      exact ⟨i, more, by rw [h, List.append_assoc]; rfl⟩
    · exact path_objectsAtItems path (i + 1) rest po hpo
end

mutual
theorem objectsAtMembers_removeKeys (unwantedKeys : BoolMap) (path : List Step)
    (data : JSONObject) :
    ∀ po ∈ objectsAtMembers path (removeKeys data unwantedKeys),
      throughArrayInArray po.1 = true ∨ cleanObject unwantedKeys po.2 := by
  match data with
  | [] => intro po hpo; simp [removeKeys, objectsAtMembers] at hpo
  | (key, value) :: rest =>
    intro po hpo
    by_cases h : unwantedKeys.get key = true
    · rw [removeKeys, if_pos h] at hpo
      exact objectsAtMembers_removeKeys unwantedKeys path rest po hpo
    · rw [removeKeys, if_neg h, objectsAtMembers, List.mem_append] at hpo
      rcases hpo with hpo | hpo
      · exact objectsAtValue_removeKeysValue unwantedKeys _ value po hpo
      · exact objectsAtMembers_removeKeys unwantedKeys path rest po hpo
theorem objectsAtValue_removeKeysValue (unwantedKeys : BoolMap) (path : List Step)
    (value : JSONValue) :
    ∀ po ∈ objectsAtValue path (removeKeysValue value unwantedKeys),
      throughArrayInArray po.1 = true ∨ cleanObject unwantedKeys po.2 := by
  match value with
  | .object nestedMap =>
    intro po hpo
    rw [removeKeysValue, objectsAtValue, List.mem_cons] at hpo
    rcases hpo with rfl | hpo
    · exact Or.inr (keys_removeKeys_clean unwantedKeys nestedMap)
    · exact objectsAtMembers_removeKeys unwantedKeys path nestedMap po hpo
  | .array nestedArray =>
    intro po hpo
    rw [removeKeysValue, objectsAtValue] at hpo
    exact objectsAtItems_removeKeysItems unwantedKeys path 0 nestedArray po hpo
  | .null | .bool _ | .number _ | .str _ =>
    intro po hpo
    simp [removeKeysValue, objectsAtValue] at hpo
theorem objectsAtItems_removeKeysItems (unwantedKeys : BoolMap) (path : List Step) (i : Nat)
    (nestedArray : List JSONValue) :
    ∀ po ∈ objectsAtItems path i (removeKeysItems nestedArray unwantedKeys),
      throughArrayInArray po.1 = true ∨ cleanObject unwantedKeys po.2 := by
  match nestedArray with
  | [] => intro po hpo; simp [removeKeysItems, objectsAtItems] at hpo
  | .object itemMap :: rest =>
    intro po hpo
    rw [removeKeysItems, removeKeysItem, objectsAtItems, objectsAtValue, List.mem_append,
      List.mem_cons] at hpo
    rcases hpo with (rfl | hpo) | hpo
    · exact Or.inr (keys_removeKeys_clean unwantedKeys itemMap)
    · exact objectsAtMembers_removeKeys unwantedKeys _ itemMap po hpo
    · exact objectsAtItems_removeKeysItems unwantedKeys path (i + 1) rest po hpo
  | .array inner :: rest =>
    intro po hpo
    simp only [removeKeysItems, removeKeysItem, objectsAtItems, objectsAtValue,
      List.mem_append] at hpo
    rcases hpo with hpo | hpo
    · obtain ⟨j, more, h⟩ := path_objectsAtItems (path ++ [.index i]) 0 inner po hpo
      refine Or.inl ?_
      rw [h, List.append_assoc]
      exact throughArrayInArray_append path more i j
    · exact objectsAtItems_removeKeysItems unwantedKeys path (i + 1) rest po hpo
  | .null :: rest | .bool _ :: rest | .number _ :: rest | .str _ :: rest =>
    intro po hpo
    simp only [removeKeysItems, removeKeysItem, objectsAtItems, objectsAtValue,
      List.mem_append, List.not_mem_nil, false_or] at hpo
    exact objectsAtItems_removeKeysItems unwantedKeys path (i + 1) rest po hpo
end

mutual
theorem map_snd_objectsAtMembers (path : List Step) (members : List (String × JSONValue)) :
    (objectsAtMembers path members).map Prod.snd = allObjectsMembers members := by
  match members with
  | [] => simp [objectsAtMembers, allObjectsMembers]
  | (key, value) :: rest =>
    rw [objectsAtMembers, allObjectsMembers, List.map_append,
      map_snd_objectsAtValue _ value, map_snd_objectsAtMembers path rest]
theorem map_snd_objectsAtValue (path : List Step) (value : JSONValue) :
    (objectsAtValue path value).map Prod.snd = allObjectsValue value := by
  match value with
  | .object members =>
    rw [objectsAtValue, allObjectsValue, List.map_cons, map_snd_objectsAtMembers path members]
  | .array items =>
    rw [objectsAtValue, allObjectsValue, map_snd_objectsAtItems path 0 items]
  | .null | .bool _ | .number _ | .str _ => simp [objectsAtValue, allObjectsValue]
theorem map_snd_objectsAtItems (path : List Step) (i : Nat) (items : List JSONValue) :
    (objectsAtItems path i items).map Prod.snd = allObjectsItems items := by
  match items with
  | [] => simp [objectsAtItems, allObjectsItems]
  | item :: rest =>
    rw [objectsAtItems, allObjectsItems, List.map_append,
      map_snd_objectsAtValue _ item, map_snd_objectsAtItems path (i + 1) rest]
end

/-- C2, refuted as stated: the object `{"x": 0}` inside `{"a": [[{"x": 0}]]}` keeps its key
`x` although `x` is unwanted. -/
theorem removeKeys_misses_array_in_array :
    ([("x", JSONValue.number 0)] : JSONObject) ∈
        allObjects (removeKeys
          [("a", .array [.array [.object [("x", .number 0)]]])] [("x", true)]) ∧
      "x" ∈ keys [("x", JSONValue.number 0)] ∧
      BoolMap.get [("x", true)] "x" = true := by
  decide

/-- C2, amended: after `removeKeys data unwantedKeys` every object anywhere in the document
either has no unwanted key or lies, at its own position, inside an array that is directly an
element of another array (its path from the root has two index steps in a row); the objects
listed with their paths are all the objects of the document; so when no array of `data` is
directly an element of another array, no object anywhere in the document has an unwanted
key. -/
theorem removeKeys_everywhere_but_array_in_array (data : JSONObject)
    (unwantedKeys : BoolMap) :
    (∀ po ∈ objectsAt (removeKeys data unwantedKeys),
      throughArrayInArray po.1 = true ∨ ∀ k ∈ keys po.2, unwantedKeys.get k = false) ∧
    (objectsAt (removeKeys data unwantedKeys)).map Prod.snd =
      allObjects (removeKeys data unwantedKeys) ∧
    (noArrayInArrayMembers data = true →
      ∀ o ∈ allObjects (removeKeys data unwantedKeys),
        ∀ k ∈ keys o, unwantedKeys.get k = false) := by
  refine ⟨?_, ?_, fun h o ho => ?_⟩
  · intro po hpo
    rw [objectsAt, List.mem_cons] at hpo
    rcases hpo with rfl | hpo
    · exact Or.inr (keys_removeKeys_clean unwantedKeys data)
    · exact objectsAtMembers_removeKeys unwantedKeys [] data po hpo
  · rw [objectsAt, allObjects, List.map_cons, map_snd_objectsAtMembers]
  · rw [allObjects, List.mem_cons] at ho
    rcases ho with rfl | ho
    · exact keys_removeKeys_clean unwantedKeys data
    · rcases allObjectsMembers_removeKeys unwantedKeys data o ho with h1 | h1
      · rw [shieldedMembers_removeKeys unwantedKeys data h] at h1
        exact absurd h1 (List.not_mem_nil o)
      · exact h1

/-- C2, amended, at two documents.  In `{"a": [[{"x": 0}]], "b": {"x": 0}}` filtered for `x`
the object under `b` is found at a path that passes through no array inside an array, so it
has no unwanted key.  The document of `TestRemoveKeys` has no array inside an array, so none
of its objects keeps an unwanted key. -/
theorem removeKeys_everywhere_but_array_in_array_witness :
    (([.key "b"], []) ∈ objectsAt (removeKeys
        [("a", .array [.array [.object [("x", .number 0)]]]),
          ("b", .object [("x", .number 0)])] [("x", true)]) ∧
      throughArrayInArray [.key "b"] = false ∧
      (throughArrayInArray [.key "b"] = true ∨
        ∀ k ∈ keys ([] : JSONObject), BoolMap.get [("x", true)] k = false)) ∧
    (noArrayInArrayMembers testData = true ∧
      ∀ o ∈ allObjects (removeKeys testData testUnwantedKeys),
        ∀ k ∈ keys o, testUnwantedKeys.get k = false) :=
  ⟨⟨by decide, by decide,
      (removeKeys_everywhere_but_array_in_array
        [("a", .array [.array [.object [("x", .number 0)]]]),
          ("b", .object [("x", .number 0)])] [("x", true)]).1 ([.key "b"], []) (by decide)⟩,
    ⟨by decide,
      (removeKeys_everywhere_but_array_in_array testData testUnwantedKeys).2.2 (by decide)⟩⟩

mutual
theorem removeKeys_removeKeys (unwantedKeys : BoolMap) (data : JSONObject) :
    removeKeys (removeKeys data unwantedKeys) unwantedKeys = removeKeys data unwantedKeys := by
  match data with
  | [] => simp [removeKeys]
  | (key, value) :: rest =>
    by_cases h : unwantedKeys.get key = true
    · rw [removeKeys, if_pos h]
      exact removeKeys_removeKeys unwantedKeys rest
    · rw [removeKeys, if_neg h, removeKeys, if_neg h,
        removeKeysValue_removeKeysValue unwantedKeys value,
        removeKeys_removeKeys unwantedKeys rest]
theorem removeKeysValue_removeKeysValue (unwantedKeys : BoolMap) (value : JSONValue) :
    removeKeysValue (removeKeysValue value unwantedKeys) unwantedKeys =
      removeKeysValue value unwantedKeys := by
  match value with
  | .object nestedMap =>
    rw [removeKeysValue, removeKeysValue, removeKeys_removeKeys unwantedKeys nestedMap]
  | .array nestedArray =>
    rw [removeKeysValue, removeKeysValue,
      removeKeysItems_removeKeysItems unwantedKeys nestedArray]
  | .null | .bool _ | .number _ | .str _ => simp [removeKeysValue]
theorem removeKeysItems_removeKeysItems (unwantedKeys : BoolMap)
    (nestedArray : List JSONValue) :
    removeKeysItems (removeKeysItems nestedArray unwantedKeys) unwantedKeys =
      removeKeysItems nestedArray unwantedKeys := by
  match nestedArray with
  | [] => simp [removeKeysItems]
  | .object itemMap :: rest =>
    rw [removeKeysItems, removeKeysItem, removeKeysItems, removeKeysItem,
      removeKeys_removeKeys unwantedKeys itemMap,
      removeKeysItems_removeKeysItems unwantedKeys rest]
  | .array _ :: rest | .null :: rest | .bool _ :: rest | .number _ :: rest | .str _ :: rest =>
    simp only [removeKeysItems, removeKeysItem, List.cons.injEq, true_and]
    exact removeKeysItems_removeKeysItems unwantedKeys rest
end

/-- C3 (idempotence): filtering a decoded object twice with the same unwanted keys gives
the same document as filtering it once. -/
theorem removeKeys_idempotent (data : JSONObject) (unwantedKeys : BoolMap) :
    removeKeys (removeKeys data unwantedKeys) unwantedKeys = removeKeys data unwantedKeys :=
  removeKeys_removeKeys unwantedKeys data

mutual
theorem prunedMembers_refl (members : List (String × JSONValue)) :
    prunedMembers members members = true := by
  match members with
  | [] => simp [prunedMembers]
  | (key, value) :: rest =>
    rw [prunedMembers]
    simp [prunedValue_refl value, prunedMembers_refl rest]
theorem prunedValue_refl (value : JSONValue) : prunedValue value value = true := by
  match value with
  | .object members =>
    rw [prunedValue]
    exact prunedMembers_refl members
  | .array items =>
    rw [prunedValue]
    exact prunedItems_refl items
  | .null | .bool _ | .number _ | .str _ => simp [prunedValue]
theorem prunedItems_refl (items : List JSONValue) : prunedItems items items = true := by
  match items with
  | [] => simp [prunedItems]
  | item :: rest =>
    rw [prunedItems]
    simp [prunedValue_refl item, prunedItems_refl rest]
end

mutual
theorem prunedMembers_removeKeys (unwantedKeys : BoolMap) (data : JSONObject) :
    prunedMembers data (removeKeys data unwantedKeys) = true := by
  match data with
  | [] => simp [removeKeys, prunedMembers]
  | (key, value) :: rest =>
    by_cases hk : unwantedKeys.get key = true
    · rw [removeKeys, if_pos hk]
      simp [prunedMembers, prunedMembers_removeKeys unwantedKeys rest]
    · rw [removeKeys, if_neg hk]
      simp [prunedMembers, prunedValue_removeKeysValue unwantedKeys value,
        prunedMembers_removeKeys unwantedKeys rest]
theorem prunedValue_removeKeysValue (unwantedKeys : BoolMap) (value : JSONValue) :
    prunedValue value (removeKeysValue value unwantedKeys) = true := by
  match value with
  | .object nestedMap =>
    rw [removeKeysValue, prunedValue]
    exact prunedMembers_removeKeys unwantedKeys nestedMap
  | .array nestedArray =>
    rw [removeKeysValue, prunedValue]
    exact prunedItems_removeKeysItems unwantedKeys nestedArray
  | .null | .bool _ | .number _ | .str _ => simp [removeKeysValue, prunedValue]
theorem prunedItems_removeKeysItems (unwantedKeys : BoolMap) (nestedArray : List JSONValue) :
    prunedItems nestedArray (removeKeysItems nestedArray unwantedKeys) = true := by
  match nestedArray with
  | [] => simp [removeKeysItems, prunedItems]
  | .object itemMap :: rest =>
    rw [removeKeysItems, removeKeysItem, prunedItems]
    simp [prunedValue, prunedMembers_removeKeys unwantedKeys itemMap,
      prunedItems_removeKeysItems unwantedKeys rest]
  | .array inner :: rest =>
    simp only [removeKeysItems, removeKeysItem, prunedItems]
    simp [prunedValue_refl (.array inner), prunedItems_removeKeysItems unwantedKeys rest]
  | .null :: rest | .bool _ :: rest | .number _ :: rest | .str _ :: rest =>
    simp only [removeKeysItems, removeKeysItem, prunedItems]
    simp [prunedValue, prunedItems_removeKeysItems unwantedKeys rest]
end

theorem keys_removeKeys (unwantedKeys : BoolMap) (data : JSONObject) :
    keys (removeKeys data unwantedKeys) =
      (keys data).filter (fun k => !unwantedKeys.get k) := by
  induction data with
  | nil => simp [removeKeys, keys]
  | cons kv rest ih =>
    obtain ⟨key, value⟩ := kv
    by_cases h : unwantedKeys.get key = true
    · rw [removeKeys, if_pos h, ih]
      simp [keys, h]
    · rw [removeKeys, if_neg h]
      simp only [keys, List.map_cons] at ih ⊢
      rw [ih]
      simp [h]

theorem mem_removeKeys (unwantedKeys : BoolMap) (data : JSONObject) (key : String)
    (value : JSONValue) (hmem : (key, value) ∈ data) (hkey : unwantedKeys.get key = false) :
    (key, removeKeysValue value unwantedKeys) ∈ removeKeys data unwantedKeys := by
  induction data with
  | nil => simp at hmem
  | cons kv rest ih =>
    obtain ⟨key', value'⟩ := kv
    rw [List.mem_cons] at hmem
    by_cases h : unwantedKeys.get key' = true
    · rw [removeKeys, if_pos h]
      rcases hmem with heq | hmem
      · cases heq
        rw [hkey] at h
        cases h
      · exact ih hmem
    · rw [removeKeys, if_neg h, List.mem_cons]
      rcases hmem with heq | hmem
      · cases heq
        exact Or.inl rfl
      · exact Or.inr (ih hmem)

theorem removeKeysItems_length (unwantedKeys : BoolMap) (nestedArray : List JSONValue) :
    (removeKeysItems nestedArray unwantedKeys).length = nestedArray.length := by
  induction nestedArray with
  | nil => simp [removeKeysItems]
  | cons item rest ih => rw [removeKeysItems, List.length_cons, List.length_cons, ih]

theorem removeKeysItems_getElem? (unwantedKeys : BoolMap) (nestedArray : List JSONValue)
    (i : Nat) (item : JSONValue) (h : nestedArray[i]? = some item) :
    (removeKeysItems nestedArray unwantedKeys)[i]? =
      some (removeKeysItem item unwantedKeys) := by
  induction nestedArray generalizing i with
  | nil => simp at h
  | cons first rest ih =>
    cases i with
    | zero =>
      simp only [List.getElem?_cons_zero, Option.some.injEq] at h
      subst h
      rw [removeKeysItems, List.getElem?_cons_zero]
    | succ j =>
      rw [List.getElem?_cons_succ] at h
      rw [removeKeysItems, List.getElem?_cons_succ]
      exact ih j h

/-- C4 (frame): `removeKeys` changes nothing except deleting entries whose key is unwanted:
the result is `data` with entries deleted from objects and nothing else changed.
For every object `data` (the root, and every object the filter descends into, which is
again filtered by `removeKeys`): the keys afterwards are exactly the keys before that are
not unwanted; under a kept key a scalar value is unchanged, an object value is the filtered
object, and an array value keeps its length and order, each element that is an object being
the filtered object and each element that is a scalar or an array being unchanged. -/
theorem removeKeys_frame (data : JSONObject) (unwantedKeys : BoolMap) :
    prunedMembers data (removeKeys data unwantedKeys) = true ∧
    keys (removeKeys data unwantedKeys) =
        (keys data).filter (fun k => !unwantedKeys.get k) ∧
    (∀ key value, (key, value) ∈ data → unwantedKeys.get key = false →
      (∀ nestedMap, value ≠ .object nestedMap) → (∀ nestedArray, value ≠ .array nestedArray) →
      (key, value) ∈ removeKeys data unwantedKeys) ∧
    (∀ key nestedMap, (key, JSONValue.object nestedMap) ∈ data →
      unwantedKeys.get key = false →
      (key, JSONValue.object (removeKeys nestedMap unwantedKeys)) ∈
        removeKeys data unwantedKeys) ∧
    (∀ key nestedArray, (key, JSONValue.array nestedArray) ∈ data →
      unwantedKeys.get key = false →
      ∃ items, (key, JSONValue.array items) ∈ removeKeys data unwantedKeys ∧
        items.length = nestedArray.length ∧
        (∀ (i : Nat) (itemMap : JSONObject),
          nestedArray[i]? = some (JSONValue.object itemMap) →
          items[i]? = some (JSONValue.object (removeKeys itemMap unwantedKeys))) ∧
        (∀ (i : Nat) (item : JSONValue), nestedArray[i]? = some item →
          (∀ itemMap, item ≠ JSONValue.object itemMap) →
          items[i]? = some item)) := by
  refine ⟨prunedMembers_removeKeys unwantedKeys data, keys_removeKeys unwantedKeys data,
    ?_, ?_, ?_⟩
  · intro key value hmem hkey hobj harr
    have h := mem_removeKeys unwantedKeys data key value hmem hkey
    cases value with
    | object nestedMap => exact absurd rfl (hobj nestedMap)
    | array nestedArray => exact absurd rfl (harr nestedArray)
    | null => simpa [removeKeysValue] using h
    | bool b => simpa [removeKeysValue] using h
    | number n => simpa [removeKeysValue] using h
    | str t => simpa [removeKeysValue] using h
  · intro key nestedMap hmem hkey
    have h := mem_removeKeys unwantedKeys data key _ hmem hkey
    rw [removeKeysValue] at h
    exact h
  · intro key nestedArray hmem hkey
    have h := mem_removeKeys unwantedKeys data key _ hmem hkey
    rw [removeKeysValue] at h
    refine ⟨removeKeysItems nestedArray unwantedKeys, h,
      removeKeysItems_length unwantedKeys nestedArray, ?_, ?_⟩
    · intro i itemMap hi
      have hget := removeKeysItems_getElem? unwantedKeys nestedArray i _ hi
      rw [removeKeysItem] at hget
      exact hget
    · intro i item hi hno
      have hget := removeKeysItems_getElem? unwantedKeys nestedArray i item hi
      cases item with
      | object itemMap => exact absurd rfl (hno itemMap)
      | array a => simpa [removeKeysItem] using hget
      | null => simpa [removeKeysItem] using hget
      | bool b => simpa [removeKeysItem] using hget
      | number n => simpa [removeKeysItem] using hget
      | str t => simpa [removeKeysItem] using hget

/-- C4 at the document of `TestRemoveKeys`: the key `keep` is not unwanted and keeps its
scalar value `"value1"`. -/
theorem removeKeys_frame_witness :
    ("keep", JSONValue.str "value1") ∈ testData ∧ testUnwantedKeys.get "keep" = false ∧
      ("keep", JSONValue.str "value1") ∈ removeKeys testData testUnwantedKeys :=
  ⟨by decide, by decide,
    (removeKeys_frame testData testUnwantedKeys).2.2.1 "keep" (.str "value1") (by decide)
      (by decide) (fun _ h => by cases h) (fun _ h => by cases h)⟩

theorem BoolMap.get_set (m : BoolMap) (key k : String) (b : Bool) :
    (m.set key b).get k = if k = key then b else m.get k := by
  unfold BoolMap.get BoolMap.set
  rw [List.lookup_cons]
  by_cases h : k = key
  · simp [h]
  · have hb : (k == key) = false := by simpa using h
    simp [h, hb]

theorem get_foldl_set (segs : List String) (m : BoolMap) (k : String) :
    BoolMap.get (segs.foldl (fun m str => m.set str true) m) k = true ↔
      k ∈ segs ∨ m.get k = true := by
  induction segs generalizing m with
  | nil => simp
  | cons seg rest ih =>
    rw [List.foldl_cons, ih, BoolMap.get_set, List.mem_cons]
    by_cases h : k = seg
    · simp [h]
    · simp [h]

theorem get_fieldsToRemove (excludedFields k : String) :
    (fieldsToRemove excludedFields).get k = true ↔ k ∈ Split excludedFields ',' := by
  unfold fieldsToRemove
  rw [get_foldl_set]
  simp [BoolMap.get]

theorem splitChars_ne_nil (sep : Char) (cs : List Char) : splitChars sep cs ≠ [] := by
  cases cs with
  | nil => simp [splitChars]
  | cons c cs =>
    rw [splitChars]
    split
    · simp
    · split <;> simp

theorem splitChars_cons_sep (sep : Char) (cs : List Char) :
    splitChars sep (sep :: cs) = [] :: splitChars sep cs := by
  rw [splitChars, if_pos rfl]

theorem splitChars_cons_other (sep c : Char) (cs : List Char) (h : c ≠ sep) :
    ∃ seg segs, splitChars sep cs = seg :: segs ∧
      splitChars sep (c :: cs) = (c :: seg) :: segs := by
  rw [splitChars, if_neg h]
  cases hs : splitChars sep cs with
  | nil => exact absurd hs (splitChars_ne_nil sep cs)
  | cons seg segs => exact ⟨seg, segs, rfl, rfl⟩

theorem intercalate_splitChars (sep : Char) (cs : List Char) :
    List.intercalate [sep] (splitChars sep cs) = cs := by
  induction cs with
  | nil => simp [splitChars, List.intercalate]
  | cons c cs ih =>
    by_cases h : c = sep
    · subst h
      rw [splitChars_cons_sep]
      cases hs : splitChars c cs with
      | nil => exact absurd hs (splitChars_ne_nil c cs)
      | cons seg segs =>
        rw [hs] at ih
        simp only [List.intercalate, List.intersperse, List.flatten] at ih ⊢
        simp [ih]
    · obtain ⟨seg, segs, h1, h2⟩ := splitChars_cons_other sep c cs h
      rw [h2]
      rw [h1] at ih
      cases segs with
      | nil =>
        simp only [List.intercalate, List.intersperse, List.flatten] at ih ⊢
        simpa using ih
      | cons seg2 segs2 =>
        simp only [List.intercalate, List.intersperse, List.flatten] at ih ⊢
        simpa using ih

theorem not_mem_of_mem_splitChars (sep : Char) (cs : List Char) :
    ∀ seg ∈ splitChars sep cs, sep ∉ seg := by
  induction cs with
  | nil => simp [splitChars]
  | cons c cs ih =>
    by_cases h : c = sep
    · subst h
      rw [splitChars_cons_sep]
      intro seg hseg
      rw [List.mem_cons] at hseg
      rcases hseg with rfl | hseg
      · simp
      · exact ih seg hseg
    · obtain ⟨seg, segs, h1, h2⟩ := splitChars_cons_other sep c cs h
      rw [h2]
      rw [h1] at ih
      intro seg' hseg
      rw [List.mem_cons] at hseg
      rcases hseg with rfl | hseg
      · rw [List.mem_cons, not_or]
        exact ⟨fun e => h e.symm, ih seg (List.mem_cons_self _ _)⟩
      · exact ih seg' (List.mem_cons_of_mem _ hseg)

theorem head?_splitChars (sep : Char) (cs : List Char) :
    (splitChars sep cs).head? = some [] ↔ cs = [] ∨ cs.head? = some sep := by
  cases cs with
  | nil => simp [splitChars]
  | cons c cs =>
    by_cases h : c = sep
    · subst h
      simp [splitChars_cons_sep]
    · obtain ⟨seg, segs, _, h2⟩ := splitChars_cons_other sep c cs h
      simp [h2, h]

theorem nil_mem_tail_splitChars (sep : Char) (cs : List Char) :
    [] ∈ (splitChars sep cs).tail ↔ cs.getLast? = some sep ∨ [sep, sep] <:+: cs := by
  induction cs with
  | nil => simp [splitChars]
  | cons c cs ih =>
    by_cases h : c = sep
    · subst h
      rw [splitChars_cons_sep, List.tail_cons]
      have hhead := head?_splitChars c cs
      cases hs : splitChars c cs with
      | nil => exact absurd hs (splitChars_ne_nil c cs)
      | cons seg segs =>
        rw [hs] at ih hhead
        simp only [List.head?_cons, Option.some.injEq, List.tail_cons] at ih hhead
        rw [List.mem_cons, ih, eq_comm, hhead, List.infix_cons_iff]
        cases cs with
        | nil => simp
        | cons d ds =>
          simp only [List.head?_cons, Option.some.injEq, List.getLast?_cons_cons,
            List.cons_prefix_cons, true_and, List.prefix_cons_inj, reduceCtorEq, false_or]
          constructor
          · rintro (h1 | h1 | h1)
            · subst h1
              exact Or.inr (Or.inl ⟨rfl, List.nil_prefix⟩)
            · exact Or.inl h1
            · exact Or.inr (Or.inr h1)
          · rintro (h1 | ⟨h1, _⟩ | h1)
            · exact Or.inr (Or.inl h1)
            · exact Or.inl h1.symm
            · exact Or.inr (Or.inr h1)
    · obtain ⟨seg, segs, h1, h2⟩ := splitChars_cons_other sep c cs h
      rw [h2, List.tail_cons]
      rw [h1, List.tail_cons] at ih
      rw [ih, List.infix_cons_iff]
      have hpre : ¬ [sep, sep] <+: c :: cs := by
        rw [List.cons_prefix_cons]
        exact fun e => h e.1.symm
      cases cs with
      | nil => simp [h, hpre]
      | cons d ds => simp [hpre]

theorem nil_mem_splitChars (sep : Char) (cs : List Char) :
    [] ∈ splitChars sep cs ↔
      cs = [] ∨ cs.head? = some sep ∨ cs.getLast? = some sep ∨ [sep, sep] <:+: cs := by
  have hhead := head?_splitChars sep cs
  have htail := nil_mem_tail_splitChars sep cs
  cases hs : splitChars sep cs with
  | nil => exact absurd hs (splitChars_ne_nil sep cs)
  | cons seg segs =>
    rw [hs] at hhead htail
    simp only [List.head?_cons, Option.some.injEq, List.tail_cons] at hhead htail
    rw [List.mem_cons, htail, eq_comm, hhead]
    tauto

theorem empty_mem_Split (s : String) (sep : Char) :
    "" ∈ Split s sep ↔ [] ∈ splitChars sep s.data := by
  unfold Split
  rw [List.mem_map]
  constructor
  · rintro ⟨seg, hseg, heq⟩
    have : seg = [] := by
      have h := congrArg String.data heq
      simpa using h
    rw [← this]
    exact hseg
  · intro h
    exact ⟨[], h, rfl⟩

/-- C5, refuted as stated: with the CSV `""`, and with `"a,,b"`, the empty name is in the
excluded set and a document key whose name is the empty string is removed. -/
theorem fieldsToRemove_keeps_empty_name :
    Split "" ',' = [""] ∧
      (fieldsToRemove "").get "" = true ∧
      removeKeys [("", .number 0), ("c", .null)] (fieldsToRemove "") = [("c", .null)] ∧
      Split "a,,b" ',' = ["a", "", "b"] ∧
      (fieldsToRemove "a,,b").get "" = true ∧
      removeKeys [("", .number 0), ("c", .null)] (fieldsToRemove "a,,b") = [("c", .null)] := by
  decide

/-- C5, amended: empty names are not ignored.  The excluded set built from the CSV contains
the empty name exactly when the CSV has an empty segment, that is when it is empty, starts
with a comma, ends with a comma or has two adjacent commas; a document key whose name is the
empty string survives the filter exactly when it was present and the CSV has no empty
segment. -/
theorem fieldsToRemove_empty_name (excludedFields : String) :
    ((fieldsToRemove excludedFields).get "" = true ↔
      (excludedFields.data = [] ∨ excludedFields.data.head? = some ',' ∨
        excludedFields.data.getLast? = some ',' ∨ [',', ','] <:+: excludedFields.data)) ∧
    (∀ data : JSONObject,
      "" ∈ keys (removeKeys data (fieldsToRemove excludedFields)) ↔
        "" ∈ keys data ∧
          ¬ (excludedFields.data = [] ∨ excludedFields.data.head? = some ',' ∨
            excludedFields.data.getLast? = some ',' ∨ [',', ','] <:+: excludedFields.data)) := by
  have h1 : (fieldsToRemove excludedFields).get "" = true ↔
      (excludedFields.data = [] ∨ excludedFields.data.head? = some ',' ∨
        excludedFields.data.getLast? = some ',' ∨ [',', ','] <:+: excludedFields.data) := by
    rw [get_fieldsToRemove, empty_mem_Split, nil_mem_splitChars]
  refine ⟨h1, fun data => ?_⟩
  rw [keys_removeKeys, List.mem_filter, ← h1]
  simp

/-- C6 (no trimming): a name is in the excluded set built by `Search` exactly when it is one
of the substrings `strings.Split` cuts the CSV into; these substrings contain no comma and,
joined by commas, give back the CSV character for character, so whitespace around a name is
part of the name.  With the CSV `"id, self"` the names are `"id"` and `" self"`: the key
`"self"` is kept and the keys `"id"` and `" self"` are removed. -/
theorem fieldsToRemove_untrimmed (excludedFields : String) :
    (∀ k, (fieldsToRemove excludedFields).get k = true ↔ k ∈ Split excludedFields ',') ∧
    List.intercalate [','] ((Split excludedFields ',').map String.data) =
      excludedFields.data ∧
    (∀ seg ∈ Split excludedFields ',', ',' ∉ seg.data) ∧
    Split "id, self" ',' = ["id", " self"] ∧
    removeKeys [("id", .str "1"), ("self", .str "u"), (" self", .str "v")]
      (fieldsToRemove "id, self") = [("self", .str "u")] := by
  refine ⟨fun k => get_fieldsToRemove excludedFields k, ?_, ?_, by decide, by decide⟩
  · unfold Split
    rw [List.map_map]
    have hid : String.data ∘ String.mk = id := by
      funext l
      rfl
    rw [hid, List.map_id]
    exact intercalate_splitChars ',' excludedFields.data
  · intro seg hseg
    unfold Split at hseg
    rw [List.mem_map] at hseg
    obtain ⟨l, hl, rfl⟩ := hseg
    exact not_mem_of_mem_splitChars ',' excludedFields.data l hl

theorem readNat_encNat (n : Nat) (rest : List Char) :
    readNat (encNat n ++ rest) = some (n, rest) := by
  induction n using Nat.strong_induction_on with
  | _ n ih =>
    rw [encNat]
    by_cases h : n = 0
    · subst h
      simp [readNat]
    · rw [dif_neg h]
      have hlt : n / 2 < n := Nat.div_lt_self (Nat.pos_of_ne_zero h) (by decide)
      have hrec := ih (n / 2) hlt
      by_cases hodd : n % 2 = 1
      · rw [if_pos hodd, List.cons_append, readNat, if_neg (by decide), if_neg (by decide),
          if_pos rfl, hrec]
        simp only [Option.map_some', Option.some.injEq, Prod.mk.injEq, and_true]
        omega
      · rw [if_neg hodd, List.cons_append, readNat, if_neg (by decide), if_pos rfl, hrec]
        simp only [Option.map_some', Option.some.injEq, Prod.mk.injEq, and_true]
        omega

theorem readString_encString (s : String) (rest : List Char) :
    readString (encString s ++ rest) = some (s, rest) := by
  unfold readString encString
  rw [List.append_assoc, readNat_encNat]
  simp

mutual
theorem parseValue_encValue (value : JSONValue) (fuel : Nat) (rest : List Char)
    (h : (encValue value).length < fuel) :
    parseValue fuel (encValue value ++ rest) = some (value, rest) := by
  match fuel, value with
  | 0, _ => omega
  | fuel + 1, .null => simp [encValue, parseValue]
  | fuel + 1, .bool true => simp [encValue, parseValue]
  | fuel + 1, .bool false => simp [encValue, parseValue]
  | fuel + 1, .number bits => simp [encValue, parseValue, readNat_encNat]
  | fuel + 1, .str s => simp [encValue, parseValue, readString_encString]
  | fuel + 1, .array items =>
    have hrec := parseItems_encItems items fuel rest (by simp [encValue] at h; omega)
    simp [encValue, parseValue, hrec]
  | fuel + 1, .object members =>
    have hrec := parseMembers_encMembers members fuel rest (by simp [encValue] at h; omega)
    simp [encValue, parseValue, hrec]
theorem parseItems_encItems (items : List JSONValue) (fuel : Nat) (rest : List Char)
    (h : (encItems items).length < fuel) :
    parseItems fuel (encItems items ++ rest) = some (items, rest) := by
  match fuel, items with
  | 0, _ => omega
  | fuel + 1, [] => simp [encItems, parseItems]
  | fuel + 1, item :: more =>
    simp only [encItems, List.length_cons, List.length_append] at h
    have h1 := parseValue_encValue item fuel (encItems more ++ rest) (by omega)
    have h2 := parseItems_encItems more fuel rest (by omega)
    simp [encItems, parseItems, h1, h2]
theorem parseMembers_encMembers (members : List (String × JSONValue)) (fuel : Nat)
    (rest : List Char) (h : (encMembers members).length < fuel) :
    parseMembers fuel (encMembers members ++ rest) = some (members, rest) := by
  match fuel, members with
  | 0, _ => omega
  | fuel + 1, [] => simp [encMembers, parseMembers]
  | fuel + 1, (key, value) :: more =>
    simp only [encMembers, List.length_cons, List.length_append] at h
    have h1 := parseValue_encValue value fuel (encMembers more ++ rest) (by omega)
    have h2 := parseMembers_encMembers more fuel rest (by omega)
    simp [encMembers, parseMembers, readString_encString, h1, h2]
end

theorem refLib_unmarshal_marshal (data : JSONObject) :
    refLib.Unmarshal (String.mk (encValue (.object data))) = .ok data := by
  have hp := parseValue_encValue (.object data) ((encValue (.object data)).length + 1) []
    (Nat.lt_succ_self _)
  rw [List.append_nil] at hp
  simp only [refLib, hp]

theorem refLib_roundTrips : refLib.RoundTrips := by
  intro text data after _ _
  exact ⟨String.mk (encValue (.object after)), rfl, refLib_unmarshal_marshal after⟩

/-- C7 (round trip): with a library that honours the contract of `encoding/json`
(`JSONLib.RoundTrips`), for every 200 response whose body decodes to an object `data` and
every CSV, `Search` returns no error and a text that decodes to exactly
`removeKeys data (fieldsToRemove excludedFields)`.
For the body of `TestSearch_Success` and the CSV `"expand"` the filtered document has no key
`expand`, keeps `startAt`, and its `issues` array has exactly one element. -/
theorem Search_roundtrip (lib : JSONLib) (hlib : lib.RoundTrips)
    (post : String → Except String Response) (body excludedFields : String)
    (res : Response) (data : JSONObject) (hpost : post body = .ok res)
    (hstatus : res.statusCode = 200) (hdec : lib.Unmarshal res.body = .ok data) :
    (∃ text, Search lib post body excludedFields = (text, none) ∧
      lib.Unmarshal text = .ok (removeKeys data (fieldsToRemove excludedFields))) ∧
    ("expand" ∉ keys (removeKeys searchTestData (fieldsToRemove "expand")) ∧
      "startAt" ∈ keys (removeKeys searchTestData (fieldsToRemove "expand")) ∧
      ∃ issue, (removeKeys searchTestData (fieldsToRemove "expand")).lookup "issues" =
        some (.array [issue])) := by
  refine ⟨?_, by decide, by decide,
    ⟨.object [("fields", .object [("summary", .str "Issue summary")]),
      ("id", .str "10000"), ("key", .str "PROJ-1")], by decide⟩⟩
  obtain ⟨text, hmar, hun⟩ := hlib res.body data _ hdec
    (prunedMembers_removeKeys (fieldsToRemove excludedFields) data)
  refine ⟨text, ?_, hun⟩
  simp [Search, hpost, hstatus, hdec, hmar]

/-- C7 at the mock exchange of `TestSearch_Success`, with the reference library. -/
theorem Search_roundtrip_witness :
    ∃ text,
      Search refLib
          (fun _ => .ok ⟨200, "200 OK", String.mk (encValue (.object searchTestData)), []⟩)
          "\x7b\"jql\":\"project=PROJ\"\x7d" "expand" = (text, none) ∧
        refLib.Unmarshal text = .ok (removeKeys searchTestData (fieldsToRemove "expand")) :=
  (Search_roundtrip refLib refLib_roundTrips
    (fun _ => .ok ⟨200, "200 OK", String.mk (encValue (.object searchTestData)), []⟩)
    "\x7b\"jql\":\"project=PROJ\"\x7d" "expand"
    ⟨200, "200 OK", String.mk (encValue (.object searchTestData)), []⟩ searchTestData rfl rfl
    (by
      rw [show (Response.mk 200 "200 OK" (String.mk (encValue (.object searchTestData)))
        []).body = String.mk (encValue (.object searchTestData)) from rfl]
      exact refLib_unmarshal_marshal searchTestData)).1

theorem strContains_append_left (a b : String) : strContains (a ++ b) a := by
  unfold strContains
  rw [String.data_append]
  exact List.infix_append' [] a.data b.data

theorem strContains_append_right (a b : String) : strContains (a ++ b) b := by
  unfold strContains
  rw [String.data_append]
  exact (List.suffix_append a.data b.data).isInfix

theorem strContains_append_of_left (a b sub : String) (h : strContains a sub) :
    strContains (a ++ b) sub := by
  unfold strContains at h ⊢
  rw [String.data_append]
  exact h.trans (List.prefix_append a.data b.data).isInfix

theorem append_ne_of_prefix_clash (a b x y : String)
    (h : ∀ u v : List Char, a.data ++ u ≠ b.data ++ v) : a ++ x ≠ b ++ y := by
  intro e
  have hd := congrArg String.data e
  rw [String.data_append, String.data_append] at hd
  exact h _ _ hd

/-- C8, refuted as stated: the body `null` is not a JSON object, yet `json.Unmarshal`
accepts it and leaves the map nil, so on a 200 response with this body `Search` reports no
unmarshal failure: it returns the text `null` and no error. -/
theorem Search_accepts_null_body :
    Search nullLib (fun _ => .ok ⟨200, "200 OK", "null", []⟩)
        "\x7b\"jql\":\"project=PROJ\"\x7d" "" = ("null", none) := by
  decide

/-- C8, amended (failure classification of `Search`): a response whose status is not 200
gives, whatever its body, the empty string and the error "failed to search for Jira
issues: " followed by the status text; a 200 response whose body the decoder rejects gives
the empty string and the error "failed to unmarshal Jira issues: " followed by the decoder's
message, which is never equal to a status error; a 200 response whose body the decoder
accepts, a JSON object or not, is no unmarshal failure: `Search` returns the marshalled
filtered document with no error, or the marshal error. -/
theorem Search_failure (lib : JSONLib) (post : String → Except String Response)
    (body excludedFields : String) (res : Response) (hpost : post body = .ok res) :
    (res.statusCode ≠ 200 →
      Search lib post body excludedFields =
          ("", some ("failed to search for Jira issues: " ++ res.status)) ∧
        strContains ("failed to search for Jira issues: " ++ res.status)
          "failed to search for Jira issues" ∧
        strContains ("failed to search for Jira issues: " ++ res.status) res.status) ∧
    (res.statusCode = 200 → ∀ err, lib.Unmarshal res.body = .error err →
      Search lib post body excludedFields =
          ("", some ("failed to unmarshal Jira issues: " ++ err)) ∧
        strContains ("failed to unmarshal Jira issues: " ++ err)
          "failed to unmarshal Jira issues" ∧
        ∀ status, "failed to unmarshal Jira issues: " ++ err ≠
          "failed to search for Jira issues: " ++ status) ∧
    (res.statusCode = 200 → ∀ data, lib.Unmarshal res.body = .ok data →
      (∀ text, lib.Marshal (removeKeys data (fieldsToRemove excludedFields)) = .ok text →
        Search lib post body excludedFields = (text, none)) ∧
      (∀ err, lib.Marshal (removeKeys data (fieldsToRemove excludedFields)) = .error err →
        Search lib post body excludedFields =
          ("", some ("failed to marshal Jira issues: " ++ err)))) := by
  refine ⟨?_, ?_, ?_⟩
  · intro hstatus
    refine ⟨by simp [Search, hpost, hstatus], ?_, strContains_append_right _ _⟩
    exact strContains_append_of_left _ _ _ (by decide)
  · intro hstatus err herr
    refine ⟨by simp [Search, hpost, hstatus, herr], ?_, ?_⟩
    · exact strContains_append_of_left _ _ _ (by decide)
    · intro status
      apply append_ne_of_prefix_clash
      intro u v e
      simp [String.data] at e
  · intro hstatus data hdec
    constructor
    · intro text hmar
      simp [Search, hpost, hstatus, hdec, hmar]
    · intro err hmar
      simp [Search, hpost, hstatus, hdec, hmar]

/-- C8, amended, at the mock exchanges of `TestSearch_NonOK` and `TestSearch_InvalidJSON`. -/
theorem Search_failure_witness :
    Search refLib
        (fun _ => .ok ⟨400, "400 Bad Request", "\x7b\"error\":\"Bad request\"\x7d\n", []⟩)
        "\x7b\"jql\":\"invalid\"\x7d" "" =
      ("", some ("failed to search for Jira issues: " ++ "400 Bad Request")) ∧
    Search refLib (fun _ => .ok ⟨200, "200 OK", "invalid-json\n", []⟩)
        "\x7b\"jql\":\"project=PROJ\"\x7d" "" =
      ("", some ("failed to unmarshal Jira issues: " ++ "invalid character")) :=
  ⟨((Search_failure refLib
      (fun _ => .ok ⟨400, "400 Bad Request", "\x7b\"error\":\"Bad request\"\x7d\n", []⟩)
      "\x7b\"jql\":\"invalid\"\x7d" ""
      ⟨400, "400 Bad Request", "\x7b\"error\":\"Bad request\"\x7d\n", []⟩ rfl).1
      (by decide)).1,
    ((Search_failure refLib (fun _ => .ok ⟨200, "200 OK", "invalid-json\n", []⟩)
      "\x7b\"jql\":\"project=PROJ\"\x7d" "" ⟨200, "200 OK", "invalid-json\n", []⟩ rfl).2.1
      rfl "invalid character" rfl).1⟩

/-- C9 (request composition): `Prompt` sends the request whose prompt is `textPrompt`, one
newline, `jiraResponse`, and whose model, stream and raw are the arguments unchanged.  The
transport is consulted at this request and at no other: the outcome of `Prompt` is the same
for two transports that answer this request alike, a transport error at this request is the
error `Prompt` returns, and a non-200 answer to this request is reported with its status.
For "Hello from text" and "Some JIRA data" the request has the prompt
"Hello from text\nSome JIRA data" and `stream` false. -/
theorem Prompt_request (lib : JSONLib) (model textPrompt jiraResponse : String)
    (stream raw : Bool) :
    (∀ post post' : request → Except String Response,
      post { Model := model, Prompt := textPrompt ++ "\n" ++ jiraResponse,
             Stream := stream, Raw := raw } =
        post' { Model := model, Prompt := textPrompt ++ "\n" ++ jiraResponse,
                Stream := stream, Raw := raw } →
      Prompt lib post model textPrompt jiraResponse stream raw =
        Prompt lib post' model textPrompt jiraResponse stream raw) ∧
    (∀ (post : request → Except String Response) (err : String),
      post { Model := model, Prompt := textPrompt ++ "\n" ++ jiraResponse,
             Stream := stream, Raw := raw } = .error err →
      Prompt lib post model textPrompt jiraResponse stream raw =
        ("", .returned "" (some err))) ∧
    (∀ (post : request → Except String Response) (res : Response),
      post { Model := model, Prompt := textPrompt ++ "\n" ++ jiraResponse,
             Stream := stream, Raw := raw } = .ok res →
      res.statusCode ≠ 200 →
      Prompt lib post model textPrompt jiraResponse stream raw =
        ("", .returned "" (some ("failed to prompt " ++ model ++ ": " ++ res.status)))) ∧
    (textPrompt ++ "\n" ++ jiraResponse).data =
      textPrompt.data ++ '\n' :: jiraResponse.data ∧
    (∀ (post : request → Except String Response) (err : String),
      post { Model := "test-model", Prompt := "Hello from text\nSome JIRA data",
             Stream := false, Raw := false } = .error err →
      Prompt lib post "test-model" "Hello from text" "Some JIRA data" false false =
        ("", .returned "" (some err))) := by
  refine ⟨?_, ?_, ?_, ?_, ?_⟩
  · intro post post' h
    have h' : post (newRequest model textPrompt jiraResponse stream raw) =
        post' (newRequest model textPrompt jiraResponse stream raw) := h
    unfold Prompt
    rw [h']
  · intro post err h
    have h' : post (newRequest model textPrompt jiraResponse stream raw) = .error err := h
    unfold Prompt
    rw [h']
  · intro post res h hstatus
    have h' : post (newRequest model textPrompt jiraResponse stream raw) = .ok res := h
    unfold Prompt
    rw [h']
    simp [hstatus]
  · simp [String.data_append]
  · intro post err h
    have h' : post (newRequest "test-model" "Hello from text" "Some JIRA data" false false) =
        .error err := by
      rw [← h]
      congr 1
    unfold Prompt
    rw [h']

/-- C9 at the call of `TestPrompt_Success`, with a transport that answers the composed
request by one error and every other request by another: `Prompt` returns the first. -/
theorem Prompt_request_witness :
    Prompt refLib
        (fun r =>
          if r = { Model := "test-model", Prompt := "Hello from text\nSome JIRA data",
                   Stream := false, Raw := false }
          then .error "connection refused" else .error "another request")
        "test-model" "Hello from text" "Some JIRA data" false false =
      ("", .returned "" (some "connection refused")) :=
  (Prompt_request refLib "test-model" "Hello from text" "Some JIRA data" false false).2.2.2.2
    (fun r =>
      if r = { Model := "test-model", Prompt := "Hello from text\nSome JIRA data",
               Stream := false, Raw := false }
      then .error "connection refused" else .error "another request")
    "connection refused" (if_pos rfl)

theorem unmarshallResponse_ok_iff (lib : JSONLib) (response s : String) :
    unmarshallResponse lib response = (s, none) ↔
      ∃ data, lib.Unmarshal response = .ok data ∧ data.lookup "response" = some (.str s) := by
  unfold unmarshallResponse
  cases hdec : lib.Unmarshal response with
  | error err => simp
  | ok data =>
    cases hl : data.lookup "response" with
    | none => simp [hl]
    | some v =>
      cases v with
      | str t => simp [hl]
      | null => simp [hl]
      | bool b => simp [hl]
      | number n => simp [hl]
      | array a => simp [hl]
      | object o => simp [hl]

/-- C10, refuted as stated: the body `null` is not decodable as a JSON object, yet
`json.Unmarshal` accepts it and leaves the map nil, so on a 200 response with this body the
error of non-streaming `Prompt` is the one about the missing "response" field, and it does
not contain "failed unmarshal generated response". -/
theorem Prompt_null_body_reports_missing_field :
    Prompt nullLib (fun _ => .ok ⟨200, "200 OK", "null", []⟩)
        "test-model" "prompt" "jira data" false false =
      ("", .returned "" (some
        "the \"response\" field is missing or not a string in the returned JSON: map[]")) ∧
    ¬ strContains
        "the \"response\" field is missing or not a string in the returned JSON: map[]"
        "failed unmarshal generated response" := by
  constructor
  · decide
  · set_option maxRecDepth 20000 in decide

/-- C10, amended (non-streaming `Prompt`): a response whose status is not 200 gives,
whatever its body, the error "failed to prompt <model>: <status text>"; a 200 response whose
body the decoder rejects gives an error containing "failed unmarshal generated response"; a
200 response whose body the decoder accepts (a JSON object, or the text `null`) to a map
without a string under "response" gives an error containing
`the "response" field is missing or not a string`; and `Prompt` returns `s` with no error
exactly when the status is 200 and the body decodes to an object whose "response" field is
the string `s`. -/
theorem Prompt_nonstreaming (lib : JSONLib) (post : request → Except String Response)
    (model textPrompt jiraResponse : String) (raw : Bool) (res : Response)
    (hpost : post (newRequest model textPrompt jiraResponse false raw) = .ok res) :
    (res.statusCode ≠ 200 →
      Prompt lib post model textPrompt jiraResponse false raw =
          ("", .returned "" (some ("failed to prompt " ++ model ++ ": " ++ res.status))) ∧
        strContains ("failed to prompt " ++ model ++ ": " ++ res.status)
          ("failed to prompt " ++ model ++ ": " ++ res.status)) ∧
    (res.statusCode = 200 → ∀ err, lib.Unmarshal res.body = .error err →
      Prompt lib post model textPrompt jiraResponse false raw =
          ("", .returned "" (some ("failed unmarshal generated response: " ++ err))) ∧
        strContains ("failed unmarshal generated response: " ++ err)
          "failed unmarshal generated response") ∧
    (res.statusCode = 200 → ∀ data, lib.Unmarshal res.body = .ok data →
      (∀ s, data.lookup "response" ≠ some (.str s)) →
      Prompt lib post model textPrompt jiraResponse false raw =
          ("", .returned "" (some
            ("the \"response\" field is missing or not a string in the returned JSON: "
              ++ lib.Sprint data))) ∧
        strContains
          ("the \"response\" field is missing or not a string in the returned JSON: "
            ++ lib.Sprint data)
          "the \"response\" field is missing or not a string") ∧
    (∀ s, (Prompt lib post model textPrompt jiraResponse false raw).2 = .returned s none ↔
      res.statusCode = 200 ∧
        ∃ data, lib.Unmarshal res.body = .ok data ∧
          data.lookup "response" = some (.str s)) := by
  refine ⟨?_, ?_, ?_, ?_⟩
  · intro hstatus
    refine ⟨by simp [Prompt, hpost, hstatus], ?_⟩
    unfold strContains
    exact List.infix_refl _
  · intro hstatus err herr
    refine ⟨by simp [Prompt, hpost, hstatus, unmarshallResponse, herr], ?_⟩
    exact strContains_append_of_left _ _ _ (by decide)
  · intro hstatus data hdec hno
    have hun : unmarshallResponse lib res.body =
        ("", some ("the \"response\" field is missing or not a string in the returned JSON: "
          ++ lib.Sprint data)) := by
      unfold unmarshallResponse
      rw [hdec]
      cases hl : data.lookup "response" with
      | none => simp [hl]
      | some v =>
        cases v with
        | str t => exact absurd hl (hno t)
        | null => simp [hl]
        | bool b => simp [hl]
        | number n => simp [hl]
        | array a => simp [hl]
        | object o => simp [hl]
    refine ⟨by simp [Prompt, hpost, hstatus, hun], ?_⟩
    exact strContains_append_of_left _ _ _ (by decide)
  · intro s
    rw [← unmarshallResponse_ok_iff]
    by_cases hstatus : res.statusCode = 200
    · simp only [Prompt, hpost, hstatus, ne_eq, not_true_eq_false, if_false, Bool.not_false,
        if_true, Outcome.returned.injEq, true_and]
      constructor
      · rintro ⟨h1, h2⟩
        exact Prod.ext h1 h2
      · intro h
        rw [h]
        exact ⟨rfl, rfl⟩
    · simp [Prompt, hpost, hstatus]

/-- C10, amended, at the mock exchange of `TestPrompt_Success`, with the reference library: the body
is the text of the object whose "response" field is "Model output response". -/
theorem Prompt_nonstreaming_witness :
    (Prompt refLib
        (fun _ => .ok ⟨200, "200 OK",
          String.mk (encValue (.object [("response", .str "Model output response")])), []⟩)
        "test-model" "Hello from text" "Some JIRA data" false false).2 =
      .returned "Model output response" none :=
  ((Prompt_nonstreaming refLib
      (fun _ => .ok ⟨200, "200 OK",
        String.mk (encValue (.object [("response", .str "Model output response")])), []⟩)
      "test-model" "Hello from text" "Some JIRA data" false
      ⟨200, "200 OK",
        String.mk (encValue (.object [("response", .str "Model output response")])), []⟩
      rfl).2.2.2 "Model output response").mpr
    ⟨rfl, [("response", .str "Model output response")],
      by
        rw [show (Response.mk 200 "200 OK"
          (String.mk (encValue (.object [("response", .str "Model output response")])))
          []).body =
          String.mk (encValue (.object [("response", .str "Model output response")]))
          from rfl]
        exact refLib_unmarshal_marshal [("response", .str "Model output response")],
      by decide⟩

theorem lookup_map_true_of_mem (l : BoolMap) (k : String) (h : k ∈ l.map Prod.fst) :
    (l.map (fun e => (e.1, true))).lookup k = some true := by
  induction l with
  | nil => simp at h
  | cons e rest ih =>
    rw [List.map_cons, List.lookup_cons]
    by_cases hk : k = e.1
    · simp [hk]
    · have hb : (k == e.1) = false := by simpa using hk
      rw [hb]
      rw [List.map_cons, List.mem_cons] at h
      rcases h with h | h
      · exact absurd h hk
      · exact ih h

theorem lookup_eq_none_of_not_mem (l : BoolMap) (k : String) (h : k ∉ l.map Prod.fst) :
    l.lookup k = none := by
  induction l with
  | nil => rfl
  | cons e rest ih =>
    obtain ⟨key, b⟩ := e
    rw [List.map_cons, List.mem_cons, not_or] at h
    rw [List.lookup_cons]
    have hb : (k == key) = false := by simpa using h.1
    rw [hb]
    exact ih h.2

theorem BoolMap.mem_keys_of_get (m : BoolMap) (k : String) (h : m.get k = true) :
    k ∈ m.map Prod.fst := by
  by_contra hk
  rw [BoolMap.get, lookup_eq_none_of_not_mem m k hk] at h
  cases h

theorem BoolMap.get_union (a b : BoolMap) (k : String) :
    (a.union b).get k = (a.get k || b.get k) := by
  unfold BoolMap.union
  by_cases h : (a.get k || b.get k) = true
  · have hmem : k ∈ ((a ++ b).filter (fun e => a.get e.1 || b.get e.1)).map Prod.fst := by
      have hk : k ∈ (a ++ b).map Prod.fst := by
        rw [List.map_append, List.mem_append]
        rw [Bool.or_eq_true] at h
        exact h.imp (BoolMap.mem_keys_of_get a k) (BoolMap.mem_keys_of_get b k)
      rw [List.mem_map] at hk ⊢
      obtain ⟨e, he, rfl⟩ := hk
      exact ⟨e, List.mem_filter.mpr ⟨he, h⟩, rfl⟩
    rw [BoolMap.get, lookup_map_true_of_mem _ k hmem, h]
  · have hno : k ∉ (((a ++ b).filter (fun e => a.get e.1 || b.get e.1)).map
        (fun e => (e.1, true))).map Prod.fst := by
      intro hk
      rw [List.map_map, List.mem_map] at hk
      obtain ⟨e, he, rfl⟩ := hk
      exact h (List.mem_filter.mp he).2
    rw [BoolMap.get, lookup_eq_none_of_not_mem _ k hno]
    simpa using h

mutual
theorem removeKeys_twice (E1 E2 U : BoolMap) (hU : ∀ k, U.get k = (E1.get k || E2.get k))
    (data : JSONObject) : removeKeys (removeKeys data E1) E2 = removeKeys data U := by
  match data with
  | [] => simp [removeKeys]
  | (key, value) :: rest =>
    have ih := removeKeys_twice E1 E2 U hU rest
    by_cases h1 : E1.get key = true
    · have hu : U.get key = true := by rw [hU, h1]; rfl
      rw [removeKeys, if_pos h1, removeKeys, if_pos hu]
      exact ih
    · by_cases h2 : E2.get key = true
      · have hu : U.get key = true := by rw [hU, h2]; simp
        rw [removeKeys, if_neg h1, removeKeys, if_pos h2, removeKeys, if_pos hu]
        exact ih
      · have hu : ¬ U.get key = true := by rw [hU]; simp [h1, h2]
        rw [removeKeys, if_neg h1, removeKeys, if_neg h2, removeKeys, if_neg hu,
          removeKeysValue_twice E1 E2 U hU value, ih]
theorem removeKeysValue_twice (E1 E2 U : BoolMap)
    (hU : ∀ k, U.get k = (E1.get k || E2.get k)) (value : JSONValue) :
    removeKeysValue (removeKeysValue value E1) E2 = removeKeysValue value U := by
  match value with
  | .object nestedMap =>
    rw [removeKeysValue, removeKeysValue, removeKeysValue,
      removeKeys_twice E1 E2 U hU nestedMap]
  | .array nestedArray =>
    rw [removeKeysValue, removeKeysValue, removeKeysValue,
      removeKeysItems_twice E1 E2 U hU nestedArray]
  | .null | .bool _ | .number _ | .str _ => simp [removeKeysValue]
theorem removeKeysItems_twice (E1 E2 U : BoolMap)
    (hU : ∀ k, U.get k = (E1.get k || E2.get k)) (nestedArray : List JSONValue) :
    removeKeysItems (removeKeysItems nestedArray E1) E2 = removeKeysItems nestedArray U := by
  match nestedArray with
  | [] => simp [removeKeysItems]
  | .object itemMap :: rest =>
    simp only [removeKeysItems, removeKeysItem, removeKeys_twice E1 E2 U hU itemMap,
      removeKeysItems_twice E1 E2 U hU rest]
  | .array _ :: rest | .null :: rest | .bool _ :: rest | .number _ :: rest | .str _ :: rest =>
    simp only [removeKeysItems, removeKeysItem, removeKeysItems_twice E1 E2 U hU rest]
end

mutual
theorem removeKeys_of_get_false (E : BoolMap) (hE : ∀ k, E.get k = false)
    (data : JSONObject) : removeKeys data E = data := by
  match data with
  | [] => simp [removeKeys]
  | (key, value) :: rest =>
    rw [removeKeys, if_neg (by simp [hE key]), removeKeysValue_of_get_false E hE value,
      removeKeys_of_get_false E hE rest]
theorem removeKeysValue_of_get_false (E : BoolMap) (hE : ∀ k, E.get k = false)
    (value : JSONValue) : removeKeysValue value E = value := by
  match value with
  | .object nestedMap => rw [removeKeysValue, removeKeys_of_get_false E hE nestedMap]
  | .array nestedArray => rw [removeKeysValue, removeKeysItems_of_get_false E hE nestedArray]
  | .null | .bool _ | .number _ | .str _ => simp [removeKeysValue]
theorem removeKeysItems_of_get_false (E : BoolMap) (hE : ∀ k, E.get k = false)
    (nestedArray : List JSONValue) : removeKeysItems nestedArray E = nestedArray := by
  match nestedArray with
  | [] => simp [removeKeysItems]
  | .object itemMap :: rest =>
    simp only [removeKeysItems, removeKeysItem, removeKeys_of_get_false E hE itemMap,
      removeKeysItems_of_get_false E hE rest]
  | .array _ :: rest | .null :: rest | .bool _ :: rest | .number _ :: rest | .str _ :: rest =>
    simp only [removeKeysItems, removeKeysItem, removeKeysItems_of_get_false E hE rest]
end

/-- C12 (composition): filtering with `E1` and then with `E2` gives the same document as
filtering once with the union of `E1` and `E2`; hence the order of the two filters does not
matter; and filtering with the empty set leaves the document unchanged. -/
theorem removeKeys_union (data : JSONObject) (E1 E2 : BoolMap) :
    removeKeys (removeKeys data E1) E2 = removeKeys data (E1.union E2) ∧
      removeKeys (removeKeys data E1) E2 = removeKeys (removeKeys data E2) E1 ∧
      removeKeys data [] = data := by
  refine ⟨removeKeys_twice E1 E2 _ (BoolMap.get_union E1 E2) data, ?_,
    removeKeys_of_get_false [] (fun _ => rfl) data⟩
  rw [removeKeys_twice E1 E2 _ (BoolMap.get_union E1 E2) data,
    removeKeys_twice E2 E1 (E1.union E2)
      (fun k => by rw [BoolMap.get_union, Bool.or_comm]) data]

theorem join_cons (x : String) (l : List String) :
    String.join (x :: l) = x ++ String.join l := by
  have h : ∀ (l : List String) (a : String),
      l.foldl (fun r s => r ++ s) a = a ++ l.foldl (fun r s => r ++ s) "" := by
    intro l
    induction l with
    | nil => intro a; simp
    | cons y rest ih =>
      intro a
      rw [List.foldl_cons, List.foldl_cons, ih (a ++ y), ih ("" ++ y)]
      simp [String.append_assoc]
  unfold String.join
  rw [List.foldl_cons, h l ("" ++ x)]
  simp

theorem readLoop_cleanReads (lib : JSONLib) (chunks : List String) (out : String) :
    readLoop lib (cleanReads chunks) out =
      (out ++ String.join (decodedResponses lib chunks),
        .returned "" (firstDecodeError lib chunks)) := by
  induction chunks generalizing out with
  | nil => simp [cleanReads, readLoop, decodedResponses, firstDecodeError, String.join]
  | cons chunk rest ih =>
    have hcons : cleanReads (chunk :: rest) = ⟨chunk, none⟩ :: cleanReads rest := rfl
    rw [hcons, readLoop]
    simp only [decodedResponses, firstDecodeError]
    cases hdec : unmarshallResponse lib chunk with
    | mk resp err =>
      cases err with
      | some e => simp [String.join]
      | none =>
        simp only [ih, join_cons, String.append_assoc]

/-- Streaming `Prompt` on a 200 body whose chunks each arrive in a read of their own and
whose end of stream arrives in a read without data: the text written is the in-order
concatenation of the "response" values of the chunks before the first one that fails to
decode, and `Prompt` returns the empty string with that chunk's error, or with no error when
every chunk decodes. -/
theorem Prompt_streaming_clean (lib : JSONLib) (post : request → Except String Response)
    (model textPrompt jiraResponse : String) (raw : Bool) (res : Response)
    (chunks : List String)
    (hpost : post (newRequest model textPrompt jiraResponse true raw) = .ok res)
    (hstatus : res.statusCode = 200) (hbody : res.rawBody = cleanReads chunks) :
    Prompt lib post model textPrompt jiraResponse true raw =
      (String.join (decodedResponses lib chunks),
        .returned "" (firstDecodeError lib chunks)) := by
  simp [Prompt, hpost, hstatus, hbody, readLoop_cleanReads]

/-- C11, evaluated where the code departs from it: a 200 streaming body whose single
`Read` returns the chunk together with `io.EOF`.  The loop leaves at `io.EOF` before it
looks at the bytes read, so whatever the library and the chunk (here the JSON text of an
object whose "response" is "Hello") nothing is written and `Prompt` returns the empty string
with no error.  With the reference library the chunk decodes to the response "Hello": it is
written when `io.EOF` arrives in a read of its own, and lost when it arrives with the
chunk. -/
theorem Prompt_streaming_drops_chunk_read_with_eof :
    (∀ (lib : JSONLib) (raw : Bool),
      Prompt lib
          (fun _ => .ok ⟨200, "200 OK", "",
            [⟨"\x7b\"response\":\"Hello\"\x7d", some .eof⟩]⟩)
          "stream-model" "stream prompt" "jira data" true raw =
        ("", .returned "" none)) ∧
    unmarshallResponse refLib "(,0001.responses101.Hello)" = ("Hello", none) ∧
    Prompt refLib
        (fun _ => .ok ⟨200, "200 OK", "",
          [⟨"(,0001.responses101.Hello)", none⟩, ⟨"", some .eof⟩]⟩)
        "stream-model" "stream prompt" "jira data" true false =
      ("Hello", .returned "" none) ∧
    Prompt refLib
        (fun _ => .ok ⟨200, "200 OK", "", [⟨"(,0001.responses101.Hello)", some .eof⟩]⟩)
        "stream-model" "stream prompt" "jira data" true false =
      ("", .returned "" none) := by
  refine ⟨fun lib raw => rfl, by decide, by decide, by decide⟩

end JiraPrompt
